import Mathlib

/-! Help-output normaliser and executor of mcp-server-make.

A shallow embedding of `internal/helpproc/helpproc.go` and of the helpers of
`internal/makeexec/executor_test.go`, a model of the executor written from the specification,
and theorems about them.

Data model.  A Go `string` is an immutable sequence of bytes, so `GoString` is a list of
`UInt8`.  The standard-library functions the package calls are embedded along
the control flow of their Go implementations, restricted to the way the
package calls them:

* `strings.Split(s, sep)` with a one-byte separator (`genSplit`: at most
  `Count(s, sep)` rounds of `Index` / cut, then the rest of the string);
* `strings.Join(elems, sep)` (the `0` and `1` element cases, then the builder
  loop);
* `strings.TrimRight(s, cutset)` with an ASCII cutset (`trimRightASCII`: drop
  the last byte while it belongs to the set);
* `regexp.MatchString` for a program made of the empty-width assertions
  `^` / `$` (without the `m` flag: begin / end of text) and literal runes,
  tried at every start offset.  The literals of the only pattern in the package
  are ASCII; a rune decoded at some offset of the input equals an ASCII
  literal exactly when the byte at that offset equals it (bytes `>= 0x80`
  decode to runes `>= 0x80` or to U+FFFD), so literals are compared bytewise.

The executor.  `Result`, `SerializeResult`, `NewExecutor` and `Execute` are declared in
`executor.go`; their definitions here follow the specification and are marked as such.  One call
of `Execute` is a function of what its collaborators do (cancel token, concurrency primitive,
process facility, child), with times in milliseconds; concurrent calls are a transition system
over the slot count, whose runs are the interleavings of the moves of the calls.
-/

namespace Helpproc

/-! ## Go strings -/

/-- Go's `byte`. -/
abbrev Byte := UInt8

/-- Go's `string`: a sequence of bytes. -/
abbrev GoString := List Byte

/-- The bytes (UTF-8) of a string literal of the source. -/
def str (s : String) : GoString := s.toList.flatMap String.utf8EncodeChar

/-! ## `strings` -/

/-- `strings.IndexByte(s, c)`: offset of the first `c` in `s`; `none` stands
for Go's `-1`. -/
def IndexByte : GoString → Byte → Option Nat
  | [], _ => none
  | b :: s, c => if b = c then some 0 else (IndexByte s c).map (· + 1)

/-- `strings.Count(s, sep)` for a one-byte separator. -/
def Count (s : GoString) (sep : Byte) : Nat := s.count sep

/-- The loop of `genSplit` (`for i < n`): `fuel` is the number of rounds left,
each round cuts the string at the first separator. -/
def genSplitLoop (sep : Byte) : Nat → GoString → List GoString
  | 0, s => [s]
  | fuel + 1, s =>
    match IndexByte s sep with
    | none => [s]
    | some m => s.take m :: genSplitLoop sep fuel (s.drop (m + 1))

/-- `strings.Split(s, sep)` for a one-byte separator: `n = Count(s, sep) + 1`
pieces, so `n - 1` rounds of the loop. -/
def Split (s : GoString) (sep : Byte) : List GoString :=
  genSplitLoop sep (Count s sep) s

/-- `strings.Join(elems, sep)`. -/
def Join : List GoString → GoString → GoString
  | [], _ => []
  | [e], _ => e
  | e :: rest, sep => rest.foldl (fun b s => b ++ sep ++ s) e

/-- The loop of `trimRightASCII`: while the string is non-empty and its last
byte is in the set, cut it off. -/
def trimRightASCII (as : GoString) : Nat → GoString → GoString
  | 0, s => s
  | fuel + 1, s =>
    match s.getLast? with
    | none => s
    | some c => if as.contains c then trimRightASCII as fuel s.dropLast else s

/-- `strings.TrimRight(s, cutset)` for a cutset of ASCII bytes. -/
def TrimRight (s cutset : GoString) : GoString :=
  if s = [] ∨ cutset = [] then s else trimRightASCII cutset s.length s

/-! ## `regexp` -/

/-- The instructions of a compiled pattern that the package uses. -/
inductive Inst where
  | beginText
  | endText
  | rune (b : Byte)
  deriving DecidableEq

/-- A compiled regular expression. -/
structure Regexp where
  prog : List Inst

/-- Run the program at offset `pos`, `rest` being the input from `pos` on. -/
def Regexp.matchHere : List Inst → Nat → GoString → Bool
  | [], _, _ => true
  | Inst.beginText :: p, pos, rest => pos == 0 && matchHere p pos rest
  | Inst.endText :: p, pos, rest => rest.isEmpty && matchHere p pos rest
  | Inst.rune _ :: _, _, [] => false
  | Inst.rune b :: p, pos, c :: rest => c == b && matchHere p (pos + 1) rest

/-- Unanchored search: try every start offset from `pos` on. -/
def Regexp.search (p : List Inst) : Nat → GoString → Bool
  | pos, [] => Regexp.matchHere p pos []
  | pos, c :: rest => Regexp.matchHere p pos (c :: rest) || Regexp.search p (pos + 1) rest

/-- `(*Regexp).MatchString(s)`: whether `s` contains any match. -/
def Regexp.MatchString (re : Regexp) (s : GoString) : Bool :=
  Regexp.search re.prog 0 s

/-! ## `helpproc` -/

/-- `NotesRegex = regexp.MustCompile("^Notes$")`. -/
def NotesRegex : Regexp :=
  ⟨[Inst.beginText, Inst.rune 78, Inst.rune 111, Inst.rune 116, Inst.rune 101, Inst.rune 115,
    Inst.endText]⟩

/-- The `for _, line := range lines` loop of `ProcessHelpOutput`: `break` at
the first matching line, otherwise `result = append(result, line)`. -/
def ProcessHelpOutput.loop : List GoString → List GoString → List GoString
  | [], result => result
  | line :: lines, result =>
    if NotesRegex.MatchString line then result
    else ProcessHelpOutput.loop lines (result ++ [line])

/-- `ProcessHelpOutput(output)`. -/
def ProcessHelpOutput (output : GoString) : GoString :=
  let lines := Split output 10
  let result := ProcessHelpOutput.loop lines []
  Join result (str "\n")

/-- `FormatHelpPreamble(preamble)`. -/
def FormatHelpPreamble (preamble : GoString) : GoString :=
  let trimmed := TrimRight preamble (str " \t\n\r")
  if trimmed = [] then [] else trimmed ++ str "\n\n"

/-! ## Reference definitions, following the specification's wording -/

/-- The sentinel line. -/
def Notes : GoString := str "Notes"

/-- The specification of `ProcessHelpOutput`: split on the newline, keep the
lines before the first line equal to `Notes`, join with the newline. -/
def refProcessHelpOutput (text : GoString) : GoString :=
  [(10 : Byte)].intercalate ((text.splitOn 10).takeWhile (fun line => decide (line ≠ Notes)))

/-- The four bytes the specification of `FormatHelpPreamble` trims: space,
tab, carriage return, newline. -/
def isTrimmed (b : Byte) : Bool := b == 32 || b == 9 || b == 13 || b == 10

/-- The specification of `FormatHelpPreamble`: remove the longest suffix of
trimmed bytes; the empty string stays, anything else gets two newlines. -/
def refFormatHelpPreamble (text : GoString) : GoString :=
  let t := text.rdropWhile isTrimmed
  if t = [] then [] else t ++ [10, 10]

/-- Offset, in the text whose lines are `lines`, of the first byte of line `k`: every earlier
line together with the newline that ends it. -/
def lineStart (lines : List GoString) (k : Nat) : Nat :=
  ((lines.take k).map (fun l => l.length + 1)).sum

/-- The input of the case "Notes in middle" of `TestProcessHelpOutput`. -/
def notesInMiddle : GoString := str "Header\nNotes\nSome content\nMore content"

/-- The input of the case "Notes at end" of `TestProcessHelpOutput`. -/
def notesAtEnd : GoString := str "Usage:\n  make <target>\n\nNotes\n\nThis is a note"

end Helpproc

namespace Makeexec

open Helpproc

/-! ## The helpers of `executor_test.go` -/

/-- How the evaluation of a Go expression or function body ends. -/
inductive Run (α : Type) where
  /-- It returns a value. -/
  | done (a : α)
  /-- It panics: a slice index is out of range. -/
  | panicked
  /-- The trip bound given to a loop was too small for it to finish. -/
  | unfinished
  deriving DecidableEq

/-- Go's `len(s)`, of type `int`. -/
def len (s : GoString) : Int := s.length

/-- The slice expression `s[i:j]`: it panics unless `0 <= i <= j <= len(s)`. -/
def slice (s : GoString) (i j : Int) : Run GoString :=
  if 0 ≤ i ∧ i ≤ j ∧ j ≤ len s then Run.done ((s.drop i.toNat).take (j - i).toNat)
  else Run.panicked

/-- The loop `for i := 0; i <= len(s)-len(substr); i++` of `containsHelper`, from the value
`i` of the loop variable on, with a bound on the number of trips. -/
def containsHelper.loop (s substr : GoString) : Nat → Int → Run Bool
  | 0, i => if i ≤ len s - len substr then Run.unfinished else Run.done false
  | trips + 1, i =>
    if i ≤ len s - len substr then
      match slice s i (i + len substr) with
      | Run.done w =>
        if w = substr then Run.done true else containsHelper.loop s substr trips (i + 1)
      | Run.panicked => Run.panicked
      | Run.unfinished => Run.unfinished
    else Run.done false

/-- `containsHelper(s, substr)`: the loop variable takes at most the `len(s) + 1` values
`0 .. len(s)`. -/
def containsHelper (s substr : GoString) : Run Bool :=
  containsHelper.loop s substr (s.length + 1) 0

/-- `contains(s, substr)`, with the short-circuit evaluation of `&&` and `||`. -/
def contains (s substr : GoString) : Run Bool :=
  if len s ≥ len substr then
    if s = substr then Run.done true
    else if len s > 0 then containsHelper s substr
    else Run.done false
  else Run.done false

/-- `substr` occurs in `s` at some offset `j >= i`. -/
def occursFrom (s substr : GoString) (i : Nat) : Prop :=
  ∃ j : Nat, i ≤ j ∧ j + substr.length ≤ s.length ∧ (s.drop j).take substr.length = substr

/-! ## The executor's result and its serialization

Written from the specification (data model, §4.1, §6, §9) and from the names the test file
uses. -/

/-- Modelled from the spec: the `Result` entity of the data model (`stdout`, `stderr`,
`exitCode`, `durationMs`), declared in `executor.go`; the field names are those the test file
uses. -/
structure Result where
  Stdout : GoString
  Stderr : GoString
  ExitCode : Int
  DurationMs : Int
  deriving DecidableEq

/-- Modelled from the spec: the error kinds of §7, declared in `executor.go`. -/
inductive ExecError where
  | invalidArgument
  | spawnFailure
  | nonZeroExit
  | timeout
  | cancelled
  deriving DecidableEq

/-- Modelled from the spec: a lower-case hexadecimal digit, for the escapes of control
characters in "JSON-string-escaped" output (§6). -/
def hexDigit (n : Nat) : Byte := if n < 10 then (48 + n).toUInt8 else (87 + n).toUInt8

/-- Modelled from the spec: the JSON escape of one byte of captured output (§6): the
quotation mark, the reverse solidus and the control characters below `0x20` are escaped, every
other byte stands for itself. -/
def jsonEscapeByte (b : Byte) : GoString :=
  if b = 34 then [92, 34]
  else if b = 92 then [92, 92]
  else if b.toNat < 32 then [92, 117, 48, 48, hexDigit (b.toNat / 16), hexDigit (b.toNat % 16)]
  else [b]

/-- What a byte `b >= 0x80` announces when it leads a well-formed UTF-8 sequence (Unicode,
table 3-7; RFC 3629): the number of continuation bytes that follow it and the range of the first
of them; the further ones are in `0x80 .. 0xBF`.  `none` for a byte that cannot lead a
sequence. -/
def utf8Lead (b : Nat) : Option (Nat × Nat × Nat) :=
  if 0xC2 ≤ b ∧ b ≤ 0xDF then some (1, 0x80, 0xBF)
  else if b = 0xE0 then some (2, 0xA0, 0xBF)
  else if b = 0xED then some (2, 0x80, 0x9F)
  else if 0xE1 ≤ b ∧ b ≤ 0xEF then some (2, 0x80, 0xBF)
  else if b = 0xF0 then some (3, 0x90, 0xBF)
  else if 0xF1 ≤ b ∧ b ≤ 0xF3 then some (3, 0x80, 0xBF)
  else if b = 0xF4 then some (3, 0x80, 0x8F)
  else none

/-- What follows a continuation byte: the end of the sequence when it was the last one
needed, otherwise one more continuation byte in `0x80 .. 0xBF`. -/
def utf8Next (need : Nat) : Option (Nat × Nat × Nat) :=
  if need ≤ 1 then none else some (need - 1, 0x80, 0xBF)

/-- One replacement for every byte of a UTF-8 sequence that was begun and not completed. -/
def flush (bad pend : GoString) : GoString := pend.flatMap (fun _ => bad)

/-- Copy a Go string as UTF-8 text: an ASCII byte is written as `ascii` says, a well-formed
UTF-8 sequence of several bytes is copied, and every byte that is not part of one is written
as `bad`.  `pend` holds the bytes of the sequence that is being read, with `need` bytes still to
come, the next of them in `lo .. hi`. -/
def coerceFrom (ascii : Byte → GoString) (bad : GoString) :
    GoString → Option (Nat × Nat × Nat) → GoString → GoString
  | _, none, [] => []
  | pend, some _, [] => flush bad pend
  | pend, some (need, lo, hi), b :: rest =>
    if lo ≤ b.toNat ∧ b.toNat ≤ hi then
      match utf8Next need with
      | none => pend ++ b :: coerceFrom ascii bad [] none rest
      | some t => coerceFrom ascii bad (pend ++ [b]) (some t) rest
    else
      flush bad pend ++
        (if b.toNat < 128 then ascii b ++ coerceFrom ascii bad [] none rest
         else
          match utf8Lead b.toNat with
          | none => bad ++ coerceFrom ascii bad [] none rest
          | some t => coerceFrom ascii bad [b] (some t) rest)
  | _, none, b :: rest =>
    if b.toNat < 128 then ascii b ++ coerceFrom ascii bad [] none rest
    else
      match utf8Lead b.toNat with
      | none => bad ++ coerceFrom ascii bad [] none rest
      | some t => coerceFrom ascii bad [b] (some t) rest

/-- Modelled from the spec: the captured bytes "as UTF-8 string" (§3): well-formed UTF-8 is
kept as it is, and every other byte becomes the replacement character U+FFFD. -/
def toValidUTF8 (s : GoString) : GoString :=
  coerceFrom (fun b => [b]) [0xEF, 0xBF, 0xBD] [] none s

/-- Modelled from the spec: "`stdout`, `stderr` are JSON-string-escaped captured output"
(§6): the UTF-8 string of the captured bytes, with the quotation mark, the reverse solidus and
the control characters escaped; a byte that is not part of well-formed UTF-8 is written as the
escape of U+FFFD, so that the result is a JSON string. -/
def jsonEscape (s : GoString) : GoString :=
  coerceFrom jsonEscapeByte (str "\\ufffd") [] none s

/-- Modelled from the spec: the decimal digits of a natural number, most significant first
(`<int>` in the result shape of §6); `fuel` bounds the number of digits. -/
def decimal : Nat → Nat → GoString
  | 0, _ => []
  | fuel + 1, n =>
    if n < 10 then [(48 + n).toUInt8]
    else decimal fuel (n / 10) ++ [(48 + n % 10).toUInt8]

/-- Modelled from the spec: the JSON rendering of an integer (`<int>` in the result shape of
§6). -/
def formatInt (i : Int) : GoString :=
  if i < 0 then 45 :: decimal (i.natAbs + 1) i.natAbs else decimal (i.natAbs + 1) i.natAbs

/-- Modelled from the spec: `SerializeResult` of `executor.go`, the companion operation of
§4.1 that "renders a Result as a compact JSON object with exactly these keys: `stdout`,
`stderr`, `exit_code`, `duration_ms`", in the shape of §6 and without trailing newline (§9).
The second component is the returned error, `none` for Go's `nil`. -/
def SerializeResult (r : Result) : GoString × Option ExecError :=
  (str "\x7b\"stdout\":\"" ++ jsonEscape r.Stdout
    ++ str "\",\"stderr\":\"" ++ jsonEscape r.Stderr
    ++ str "\",\"exit_code\":" ++ formatInt r.ExitCode
    ++ str ",\"duration_ms\":" ++ formatInt r.DurationMs
    ++ str "\x7d", none)

/-- A value of a member of a flat JSON object: a string, decoded to its bytes, or an integer
number, decoded to its value. -/
inductive JValue where
  | string (s : GoString)
  | number (i : Int)
  deriving DecidableEq

/-- The value of a hexadecimal digit. -/
def hexValue (b : Byte) : Option Nat :=
  if 48 ≤ b.toNat ∧ b.toNat ≤ 57 then some (b.toNat - 48)
  else if 97 ≤ b.toNat ∧ b.toNat ≤ 102 then some (b.toNat - 87)
  else none

/-- Whether the bytes are well-formed UTF-8, from a state on: `none` between sequences,
`some (need, lo, hi)` inside one, with `need` continuation bytes to come, the next of them in
`lo .. hi`. -/
def utf8Valid : Option (Nat × Nat × Nat) → GoString → Bool
  | none, [] => true
  | some _, [] => false
  | none, b :: rest =>
    if b.toNat < 128 then utf8Valid none rest
    else
      match utf8Lead b.toNat with
      | none => false
      | some t => utf8Valid (some t) rest
  | some (need, lo, hi), c :: rest =>
    if lo ≤ c.toNat ∧ c.toNat ≤ hi then utf8Valid (utf8Next need) rest else false

/-- Whether a Go string is a UTF-8 string, as the data model (§3) has it for the captured
streams. -/
def validUTF8 (s : GoString) : Bool := utf8Valid none s

/-- The UTF-8 encoding of the code point `n` (RFC 3629, section 3). -/
def utf8OfNat (n : Nat) : GoString :=
  if n < 0x80 then [n.toUInt8]
  else if n < 0x800 then [(0xC0 + n / 64).toUInt8, (0x80 + n % 64).toUInt8]
  else if n < 0x10000 then
    [(0xE0 + n / 4096).toUInt8, (0x80 + n / 64 % 64).toUInt8, (0x80 + n % 64).toUInt8]
  else
    [(0xF0 + n / 262144).toUInt8, (0x80 + n / 4096 % 64).toUInt8,
      (0x80 + n / 64 % 64).toUInt8, (0x80 + n % 64).toUInt8]

/-- The UTF-8 encoding of a Unicode scalar value. -/
def utf8Bytes (c : Char) : GoString := utf8OfNat c.toNat

/-- The UTF-8 encoding of a sequence of Unicode scalar values. -/
def utf8 (cs : List Char) : GoString := cs.flatMap utf8Bytes

/-- The character that a two-character escape stands for, by the byte behind the reverse
solidus (RFC 8259, section 7). -/
def escapeValue (c : Byte) : Option Byte :=
  if c = 34 ∨ c = 92 ∨ c = 47 then some c
  else if c = 98 then some 8
  else if c = 102 then some 12
  else if c = 110 then some 10
  else if c = 114 then some 13
  else if c = 116 then some 9
  else none

/-- Where the reader of a JSON string stands: in plain text, behind a reverse solidus, behind
`\u` with `k` hexadecimal digits read, of value `acc`, or inside a UTF-8 sequence, with `need`
continuation bytes to come, the next of them in `lo .. hi`. -/
inductive StrState where
  | plain
  | escape
  | hex (k acc : Nat)
  | tail (need lo hi : Nat)

/-- The state of the reader behind a byte of a UTF-8 sequence. -/
def StrState.ofUtf8 : Option (Nat × Nat × Nat) → StrState
  | none => StrState.plain
  | some (need, lo, hi) => StrState.tail need lo hi

/-- Read a JSON string byte by byte, from the given state on: the decoded bytes and the input
that follows the closing quotation mark.  A control character, a byte that does not continue
well-formed UTF-8 and an unknown escape are refused.  Of the escapes, the two-character ones
and the `\u` escapes of the characters up to U+FFFF that are not surrogates are read; the
escape of a surrogate is refused, also in a pair. -/
def readStringFrom : StrState → GoString → Option (GoString × GoString)
  | _, [] => none
  | StrState.plain, b :: rest =>
    if b = 34 then some ([], rest)
    else if b = 92 then readStringFrom StrState.escape rest
    else if b.toNat < 32 then none
    else if b.toNat < 128 then
      (readStringFrom StrState.plain rest).map (fun p => (b :: p.1, p.2))
    else
      match utf8Lead b.toNat with
      | none => none
      | some t => (readStringFrom (StrState.ofUtf8 (some t)) rest).map (fun p => (b :: p.1, p.2))
  | StrState.tail need lo hi, c :: rest =>
    if lo ≤ c.toNat ∧ c.toNat ≤ hi then
      (readStringFrom (StrState.ofUtf8 (utf8Next need)) rest).map (fun p => (c :: p.1, p.2))
    else none
  | StrState.escape, c :: rest =>
    if c = 117 then readStringFrom (StrState.hex 0 0) rest
    else
      match escapeValue c with
      | none => none
      | some v => (readStringFrom StrState.plain rest).map (fun p => (v :: p.1, p.2))
  | StrState.hex k acc, d :: rest =>
    match hexValue d with
    | none => none
    | some v =>
      if k < 3 then readStringFrom (StrState.hex (k + 1) (acc * 16 + v)) rest
      else if 0xD800 ≤ acc * 16 + v ∧ acc * 16 + v ≤ 0xDFFF then none
      else
        (readStringFrom StrState.plain rest).map
          (fun p => (utf8OfNat (acc * 16 + v) ++ p.1, p.2))

/-- Read a JSON string from behind its opening quotation mark. -/
def readString (input : GoString) : Option (GoString × GoString) :=
  readStringFrom StrState.plain input

/-- The reader, at the first byte of what the escaper writes from a state on, is in plain
text; a sequence that was begun has the reader wait for its next byte. -/
def Pending (pend : GoString) (t : Option (Nat × Nat × Nat)) : Prop :=
  ∀ need lo hi, t = some (need, lo, hi) →
    128 ≤ lo ∧ ∀ X, readStringFrom StrState.plain (pend ++ X)
      = (readStringFrom (StrState.tail need lo hi) X).map (fun p => (pend ++ p.1, p.2))

/-- Whether a byte is a decimal digit. -/
def isDigit (b : Byte) : Bool := decide (48 ≤ b.toNat ∧ b.toNat ≤ 57)

/-- The value of a run of decimal digits, most significant first. -/
def digitsValue (ds : GoString) : Nat := ds.foldl (fun acc b => acc * 10 + (b.toNat - 48)) 0

/-- Read the digits of a JSON integer: the longest run of digits, which is not empty and has
no leading zero unless it is the single digit `0`. -/
def readNat (input : GoString) : Option (Nat × GoString) :=
  match input.span isDigit with
  | ([], _) => none
  | (d :: ds, rest) => if d = 48 ∧ ds ≠ [] then none else some (digitsValue (d :: ds), rest)

/-- Read a JSON integer: an optional minus sign, then the digits. -/
def readNumber : GoString → Option (Int × GoString)
  | [] => none
  | b :: rest =>
    if b = 45 then (readNat rest).map (fun p => (-(p.1 : Int), p.2))
    else (readNat (b :: rest)).map (fun p => ((p.1 : Int), p.2))

/-- Read a member value: a string or an integer. -/
def readValue : GoString → Option (JValue × GoString)
  | [] => none
  | b :: rest =>
    if b = 34 then (readString rest).map (fun p => (JValue.string p.1, p.2))
    else (readNumber (b :: rest)).map (fun p => (JValue.number p.1, p.2))

/-- Read the members of a flat JSON object from behind its opening brace, up to the closing
brace, which must end the input: a key, a colon, a value, and then either a comma and more
members or the closing brace; `fuel` bounds the number of members. -/
def readMembers : Nat → GoString → Option (List (GoString × JValue))
  | 0, _ => none
  | fuel + 1, input =>
    match input with
    | 34 :: rest =>
      match readString rest with
      | some (key, 58 :: rest2) =>
        match readValue rest2 with
        | some (v, 44 :: rest3) => (readMembers fuel rest3).map (fun ms => (key, v) :: ms)
        | some (v, [125]) => some [(key, v)]
        | _ => none
      | _ => none
    | _ => none

/-- Read a flat JSON object in compact form (RFC 8259 without insignificant whitespace): an
opening brace, members separated by commas, a closing brace, and nothing behind it. -/
def readObject : GoString → Option (List (GoString × JValue))
  | 123 :: rest => readMembers rest.length rest
  | _ => none

/-- The `Result` of the test `TestSerializeResult`. -/
def helloResult : Result := ⟨str "Hello World", str "", 0, 100⟩

/-! ## The executor

Written from §3, §4.1, §5 and §7 of the specification.  Times are in milliseconds. -/

/-- Modelled from the spec: the `Executor` of `executor.go`, holding the `ExecutorConfig` of
§3 (`makePath`, `defaultWorkDir`, `timeout`, `maxConcurrency`); the timeout is kept in
milliseconds. -/
structure Executor where
  MakePath : GoString
  DefaultWorkDir : GoString
  Timeout : Nat
  MaxConcurrency : Nat

/-- Modelled from the spec: `NewExecutor(makePath, defaultWorkDir, timeoutSeconds,
maxConcurrency)` of `executor.go`; the test file expects `Timeout` to be `timeoutSeconds`
seconds. -/
def NewExecutor (makePath defaultWorkDir : GoString) (timeoutSeconds maxConcurrency : Nat) :
    Executor :=
  ⟨makePath, defaultWorkDir, timeoutSeconds * 1000, maxConcurrency⟩

/-- Modelled from the spec: `MakeParams` (§3), declared in `executor.go`. -/
structure MakeParams where
  Target : GoString

/-- Modelled from the spec: what the collaborators of one `Execute` call do (§2, §4.1): the
caller's cancel token, which carries a deadline and/or a cancel event; the bounded-concurrency
primitive, which has a slot for the call at some time or never; the process facility, which
starts the child or not; and the child, which exits by itself some time after its start, with
a status, or never, and has written some output by any given time.  Times count from the
call, those of the child from its start. -/
structure World where
  callerDeadline : Option Nat
  cancelEvent : Option Nat
  slotAt : Option Nat
  spawnOk : Bool
  exitAfter : Option Nat
  exitStatus : Int
  stdout : Nat → GoString
  stderr : Nat → GoString

/-- The earlier of two times that may never come. -/
def earliest : Option Nat → Option Nat → Option Nat
  | some a, some b => some (min a b)
  | some a, none => some a
  | none, b => b

/-- Modelled from the spec: the time at which the cancel token fires, by its deadline or by its
cancel event (§4.1 Inputs). -/
def World.tokenFires (w : World) : Option Nat := earliest w.callerDeadline w.cancelEvent

/-- Modelled from the spec: step 1 of §4.1, Admission.  `none`: the call waits for ever;
`some none`: the token fired while waiting; `some (some t)`: a slot is acquired at `t`. -/
def admission (w : World) : Option (Option Nat) :=
  match w.slotAt, w.tokenFires with
  | some t, some c => if c ≤ t then some none else some (some t)
  | some t, none => some (some t)
  | none, some _ => some none
  | none, none => none

/-- Modelled from the spec: step 2 of §4.1, "a per-invocation deadline = min(caller's
deadline from `cancelToken`, now + `timeout`)", `now` being the time of admission. -/
def derivedDeadline (e : Executor) (w : World) (now : Nat) : Nat :=
  match w.callerDeadline with
  | some d => min d (now + e.Timeout)
  | none => now + e.Timeout

/-- Modelled from the spec: the `Result` of the paths on which no child ran (§7). -/
def noChild : Result := ⟨[], [], -1, 0⟩

/-- Modelled from the spec: `Execute` of `executor.go`, along the algorithm of §4.1.  The
target is checked first; the call is admitted; the deadline is derived; the child is spawned
at `t0`; the call waits until the child exits, the deadline elapses or the cancel event fires;
a child that is still running then is killed and the exit code is `-1`; a child that exited
gives its status, and a non-zero status is reported as an error.  `none` stands for a call that
never returns, the second component of a returned pair is the error (`none` for `nil`). -/
def Execute (e : Executor) (w : World) (params : MakeParams) :
    Option (Result × Option ExecError) :=
  if params.Target = [] then some (noChild, some ExecError.invalidArgument)
  else
    match admission w with
    | none => none
    | some none => some (noChild, some ExecError.cancelled)
    | some (some t0) =>
      if w.spawnOk = false then some (noChild, some ExecError.spawnFailure)
      else
        let budget := derivedDeadline e w t0 - t0
        let cancelled : Option Nat := w.cancelEvent.map (fun c => c - t0)
        let stop : Nat := match cancelled with
          | some c => min c budget
          | none => budget
        let kind : ExecError := match cancelled with
          | some c => if c < budget then ExecError.cancelled else ExecError.timeout
          | none => ExecError.timeout
        let killed : Result × Option ExecError :=
          (⟨w.stdout stop, w.stderr stop, -1, stop⟩, some kind)
        match w.exitAfter with
        | none => some killed
        | some d =>
          if d < stop then
            some (⟨w.stdout d, w.stderr d, w.exitStatus, d⟩,
              if w.exitStatus = 0 then none else some ExecError.nonZeroExit)
          else some killed

/-! ## Concurrent calls

The calls of one `Executor` that are in flight, as a transition system over the slot count of
the bounded-concurrency primitive (§5: "the only shared mutable state in the Executor", "accessed
only through its acquire/release operations"). -/

/-- Modelled from the spec: where one `Execute` call stands (§4.1): not yet made; waiting for
a slot; holding a slot, before the spawn; waiting for its child, which is alive; returned. -/
inductive Phase where
  | idle
  | waiting
  | holding
  | running
  | returned
  deriving DecidableEq

/-- Modelled from the spec: the moves of one call (§4.1, §7): it is made with a valid target;
it is rejected for an invalid argument; it acquires a slot; its token fires while it waits for
a slot; its child is spawned; the spawn fails; its child has terminated (exit, or kill after
timeout or cancellation).  The last two release the slot and return, the second and the
fourth return without a slot. -/
inductive Move where
  | call
  | reject
  | acquire
  | cancelWait
  | spawn
  | spawnFail
  | finish
  deriving DecidableEq

/-- Modelled from the spec: a move of the call numbered `id`: calls are "otherwise linear"
(§5), so a run of the executor is a sequence of such moves. -/
structure Event where
  move : Move
  id : Nat
  deriving DecidableEq

/-- Modelled from the spec: the state of an executor, namely the number of slots held in the
bounded-concurrency primitive, "the only shared mutable state" (§5), and the phase of every
call. -/
structure Sys where
  held : Nat
  phases : List Phase
  deriving DecidableEq

/-- Modelled from the spec: one move of one call, in an executor with `K` slots
(`maxConcurrency`); `none` when the call cannot make the move: a slot is acquired only while
fewer than `K` are held, and released on every path that acquired one (§4.1, steps 1 and
7). -/
def step (K : Nat) (s : Sys) (ev : Event) : Option Sys :=
  match s.phases[ev.id]?, ev.move with
  | some Phase.idle, Move.call => some ⟨s.held, s.phases.set ev.id Phase.waiting⟩
  | some Phase.idle, Move.reject => some ⟨s.held, s.phases.set ev.id Phase.returned⟩
  | some Phase.waiting, Move.acquire =>
    if s.held < K then some ⟨s.held + 1, s.phases.set ev.id Phase.holding⟩ else none
  | some Phase.waiting, Move.cancelWait => some ⟨s.held, s.phases.set ev.id Phase.returned⟩
  | some Phase.holding, Move.spawn => some ⟨s.held, s.phases.set ev.id Phase.running⟩
  | some Phase.holding, Move.spawnFail => some ⟨s.held - 1, s.phases.set ev.id Phase.returned⟩
  | some Phase.running, Move.finish => some ⟨s.held - 1, s.phases.set ev.id Phase.returned⟩
  | _, _ => none

/-- Modelled from the spec: the state after a sequence of moves, in any interleaving of the
calls (§5, "multiple Executor calls may be in flight concurrently"); `none` when some move
cannot be made. -/
def run (K : Nat) : Sys → List Event → Option Sys
  | s, [] => some s
  | s, ev :: evs =>
    match step K s ev with
    | none => none
    | some s2 => run K s2 evs

/-- Modelled from the spec: an executor on which `N` calls are going to be made; no slot is
held. -/
def initial (N : Nat) : Sys := ⟨0, List.replicate N Phase.idle⟩

/-- Whether a call in this phase holds a slot. -/
def holdsSlot : Phase → Bool
  | Phase.holding => true
  | Phase.running => true
  | _ => false

/-- The number of calls that hold a slot. -/
def slotsInUse (s : Sys) : Nat := s.phases.countP holdsSlot

/-- The number of children alive: the calls that wait for their child. -/
def alive (s : Sys) : Nat := s.phases.countP (fun p => decide (p = Phase.running))

/-- What the executor keeps true: every slot held is held by a call, and no more than `K` are
held. -/
def Inv (K : Nat) (s : Sys) : Prop :=
  s.held = slotsInUse s ∧ s.held ≤ K

/-- Whether a move acquires a slot. -/
def Move.acquires : Move → Bool
  | Move.acquire => true
  | _ => false

/-- Whether a move releases a slot. -/
def Move.releases : Move → Bool
  | Move.spawnFail => true
  | Move.finish => true
  | _ => false

/-- The number of slots acquired, in a sequence of moves, by the calls that `p` selects. -/
def acquired (p : Nat → Bool) (evs : List Event) : Nat :=
  evs.countP (fun ev => p ev.id && ev.move.acquires)

/-- The number of slots released, in a sequence of moves, by the calls that `p` selects. -/
def released (p : Nat → Bool) (evs : List Event) : Nat :=
  evs.countP (fun ev => p ev.id && ev.move.releases)

/-- The number of slots that call `i` holds: one while it holds a slot, none before and
after. -/
def slotsOf (s : Sys) (i : Nat) : Nat :=
  match s.phases[i]? with
  | some p => if holdsSlot p then 1 else 0
  | none => 0

/-- The world of the test `TestExecute_WithTimeout`: a background context, a free slot, a
child that sleeps ten seconds. -/
def slowWorld : World :=
  ⟨none, none, some 0, true, some 10000, 0, fun _ => [], fun _ => []⟩

/-- The world of the test `TestExecute_SimpleCommand`: the child echoes a line and exits
with status 0. -/
def helloWorld : World :=
  ⟨none, none, some 0, true, some 5, 0, fun _ => str "Hello from test\n", fun _ => []⟩

/-- The world of the test `TestExecute_NonExistentTarget`: `make` reports the missing rule
and exits with status 2. -/
def missingWorld : World :=
  ⟨none, none, some 0, true, some 5, 2, fun _ => [],
    fun _ => str "make: *** No rule to make target 'nonexistent'.  Stop.\n"⟩

end Makeexec

namespace Helpproc
/-! ## Lemmas on `strings.Split` and `strings.Join` -/

theorem indexByte_none {s : GoString} {c : Byte} (h : IndexByte s c = none) : c ∉ s := by
  induction s with
  | nil => simp
  | cons b s ih =>
    simp only [IndexByte] at h
    split at h
    · simp at h
    · rename_i hb
      simp only [Option.map_eq_none'] at h
      simp only [List.mem_cons, not_or]
      exact ⟨fun e => hb e.symm, ih h⟩

theorem indexByte_some {s : GoString} {c : Byte} {m : Nat} (h : IndexByte s c = some m) :
    s = s.take m ++ c :: s.drop (m + 1) ∧ c ∉ s.take m := by
  induction s generalizing m with
  | nil => simp [IndexByte] at h
  | cons b s ih =>
    simp only [IndexByte] at h
    split at h
    · rename_i hb
      cases h
      simp [hb]
    · rename_i hb
      simp only [Option.map_eq_some'] at h
      obtain ⟨k, hk, rfl⟩ := h
      obtain ⟨h1, h2⟩ := ih hk
      refine ⟨?_, ?_⟩
      · simp only [List.take_succ_cons, List.drop_succ_cons, List.cons_append]
        rw [← h1]
      · simp only [List.take_succ_cons, List.mem_cons, not_or]
        exact ⟨fun e => hb e.symm, h2⟩

theorem splitOn_of_not_mem {s : GoString} {c : Byte} (h : c ∉ s) : s.splitOn c = [s] := by
  apply List.splitOnP_eq_single
  intro x hx hxc
  simp only [beq_iff_eq] at hxc
  exact h (hxc ▸ hx)

theorem splitOn_first {p : GoString} {c : Byte} (h : c ∉ p) (q : GoString) :
    (p ++ c :: q).splitOn c = p :: q.splitOn c := by
  apply List.splitOnP_first
  · intro x hx hxc
    simp only [beq_iff_eq] at hxc
    exact h (hxc ▸ hx)
  · simp

theorem genSplitLoop_eq (sep : Byte) (fuel : Nat) (s : GoString) (h : s.count sep ≤ fuel) :
    genSplitLoop sep fuel s = s.splitOn sep := by
  induction fuel generalizing s with
  | zero =>
    have : sep ∉ s := by
      intro hm
      have := List.count_pos_iff.mpr hm
      omega
    simp [genSplitLoop, splitOn_of_not_mem this]
  | succ n ih =>
    simp only [genSplitLoop]
    split
    · rename_i hi
      rw [splitOn_of_not_mem (indexByte_none hi)]
    · rename_i m hi
      obtain ⟨h1, h2⟩ := indexByte_some hi
      have hc : (s.drop (m + 1)).count sep ≤ n := by
        have : s.count sep = (s.take m).count sep + ((s.drop (m + 1)).count sep + 1) := by
          conv_lhs => rw [h1]
          simp [List.count_append]
        omega
      rw [ih _ hc]
      conv_rhs => rw [h1]
      rw [splitOn_first h2]

theorem Split_eq_splitOn (s : GoString) (sep : Byte) : Split s sep = s.splitOn sep :=
  genSplitLoop_eq sep _ s (Nat.le_refl _)

theorem foldl_join (sep : GoString) (rest : List GoString) (e : GoString) :
    rest.foldl (fun b s => b ++ sep ++ s) e = e ++ (rest.map (sep ++ ·)).flatten := by
  induction rest generalizing e with
  | nil => simp
  | cons r rest ih =>
    rw [List.foldl_cons, ih]
    simp

theorem Join_eq_intercalate (ls : List GoString) (sep : GoString) :
    Join ls sep = sep.intercalate ls := by
  match ls with
  | [] => simp [Join, List.intercalate]
  | [e] => simp [Join, List.intercalate]
  | e :: f :: rest =>
    simp only [Join, foldl_join, List.intercalate]
    have : ∀ (l : List GoString) (a : GoString),
        (List.intersperse sep (a :: l)).flatten = a ++ (l.map (sep ++ ·)).flatten := by
      intro l
      induction l with
      | nil => simp
      | cons b l ih => intro a; simp [List.intersperse, ih b]
    rw [this]

/-! ## Lemmas on the pattern -/

theorem matchHere_literal (lit : GoString) (pos : Nat) (s : GoString) :
    Regexp.matchHere (lit.map Inst.rune ++ [Inst.endText]) pos s = true ↔ s = lit := by
  induction lit generalizing pos s with
  | nil => cases s <;> simp [Regexp.matchHere]
  | cons b lit ih =>
    cases s with
    | nil => simp [Regexp.matchHere]
    | cons c s => simp [Regexp.matchHere, ih]

theorem search_beginText_pos (p : List Inst) (pos : Nat) (s : GoString) (h : 0 < pos) :
    Regexp.search (Inst.beginText :: p) pos s = false := by
  induction s generalizing pos with
  | nil => simp [Regexp.search, Regexp.matchHere]; omega
  | cons c s ih =>
    simp only [Regexp.search, Regexp.matchHere, ih (pos + 1) (Nat.succ_pos _)]
    simp; omega

theorem search_beginText (p : List Inst) (s : GoString) :
    Regexp.search (Inst.beginText :: p) 0 s = Regexp.matchHere p 0 s := by
  cases s with
  | nil => simp [Regexp.search, Regexp.matchHere]
  | cons c s =>
    simp [Regexp.search, Regexp.matchHere, search_beginText_pos p 1 s (Nat.succ_pos _)]

theorem NotesRegex_prog :
    NotesRegex.prog = Inst.beginText :: (Notes.map Inst.rune ++ [Inst.endText]) := by decide

theorem matchString_iff (s : GoString) : NotesRegex.MatchString s = true ↔ s = Notes := by
  rw [Regexp.MatchString, NotesRegex_prog, search_beginText, matchHere_literal]

theorem matchString_eq (s : GoString) : NotesRegex.MatchString s = decide (s = Notes) := by
  by_cases h : s = Notes
  · simp [h, (matchString_iff Notes).mpr rfl]
  · have : ¬ NotesRegex.MatchString s = true := fun hm => h ((matchString_iff s).mp hm)
    simp [h, this]

/-! ## Lemmas on the loop -/

theorem loop_eq (lines result : List GoString) :
    ProcessHelpOutput.loop lines result
      = result ++ lines.takeWhile (fun line => decide (line ≠ Notes)) := by
  induction lines generalizing result with
  | nil => simp [ProcessHelpOutput.loop]
  | cons line lines ih =>
    simp only [ProcessHelpOutput.loop, matchString_eq, List.takeWhile_cons]
    by_cases h : line = Notes
    · simp [h]
    · simp [h, ih]

theorem processHelpOutput_eq_ref (text : GoString) :
    ProcessHelpOutput text = refProcessHelpOutput text := by
  have h : str "\n" = [10] := by decide
  simp only [ProcessHelpOutput, refProcessHelpOutput, Split_eq_splitOn, loop_eq, h,
    Join_eq_intercalate, List.nil_append]

/-! ## Lines -/

theorem not_mem_of_mem_splitOn (c : Byte) (s : GoString) :
    ∀ l ∈ s.splitOn c, c ∉ l := by
  induction s with
  | nil => simp
  | cons b s ih =>
    intro l hl
    simp only [List.splitOn, List.splitOnP_cons] at hl ih
    split at hl
    · rename_i hb
      rcases List.mem_cons.mp hl with rfl | hl
      · simp
      · exact ih l hl
    · rename_i hb
      cases hs : List.splitOnP (fun x => x == c) s with
      | nil => exact absurd hs (List.splitOnP_ne_nil _ _)
      | cons hd tl =>
        rw [hs] at hl ih
        simp only [List.modifyHead_cons, List.mem_cons] at hl
        rcases hl with rfl | hl
        · have := ih hd (List.mem_cons_self _ _)
          simp only [beq_iff_eq] at hb
          simp only [List.mem_cons, not_or]
          exact ⟨fun e => hb e.symm, this⟩
        · exact ih l (List.mem_cons_of_mem _ hl)

theorem splitOn_ne_nil (c : Byte) (s : GoString) : s.splitOn c ≠ [] :=
  List.splitOnP_ne_nil _ _

theorem takeWhile_eq_self {α : Type} (p : α → Bool) (l : List α) (h : ∀ x ∈ l, p x = true) :
    l.takeWhile p = l := by
  induction l with
  | nil => rfl
  | cons a l ih =>
    rw [List.takeWhile_cons, h a (List.mem_cons_self _ _)]
    simp only [↓reduceIte, List.cons.injEq, true_and]
    exact ih (fun x hx => h x (List.mem_cons_of_mem _ hx))

theorem processHelpOutput_of_no_sentinel (text : GoString)
    (h : ∀ line ∈ text.splitOn 10, line ≠ Notes) : ProcessHelpOutput text = text := by
  rw [processHelpOutput_eq_ref, refProcessHelpOutput, takeWhile_eq_self]
  · exact List.intercalate_splitOn text 10
  · intro x hx
    simpa using h x hx

theorem splitOn_intercalate_lines (ls : List GoString) (hls : ls ≠ [])
    (h : ∀ l ∈ ls, (10 : Byte) ∉ l) : ([(10 : Byte)].intercalate ls).splitOn 10 = ls :=
  List.splitOn_intercalate ls 10 h hls

theorem intercalate_notes_free (kept : List GoString) (h : ∀ l ∈ kept, (10 : Byte) ∉ l)
    (hn : Notes ∉ kept) :
    ∀ line ∈ ([(10 : Byte)].intercalate kept).splitOn 10, line ≠ Notes := by
  cases kept with
  | nil =>
    intro line hl
    simp [List.intercalate] at hl
    subst hl
    decide
  | cons a kept =>
    rw [splitOn_intercalate_lines _ (List.cons_ne_nil _ _) h]
    intro line hl e
    exact hn (e ▸ hl)

theorem sentinel_not_mem_takeWhile (ls : List GoString) :
    Notes ∉ ls.takeWhile (fun line => decide (line ≠ Notes)) := by
  intro h
  have := List.mem_takeWhile_imp h
  simp at this

theorem processHelpOutput_idem (text : GoString) :
    ProcessHelpOutput (ProcessHelpOutput text) = ProcessHelpOutput text := by
  apply processHelpOutput_of_no_sentinel
  rw [processHelpOutput_eq_ref, refProcessHelpOutput]
  apply intercalate_notes_free
  · intro l hl
    exact not_mem_of_mem_splitOn 10 text l (List.takeWhile_subset _ hl)
  · exact sentinel_not_mem_takeWhile _

theorem takeWhile_append_sentinel (pre post : List GoString) (h : Notes ∉ pre) :
    (pre ++ Notes :: post).takeWhile (fun line => decide (line ≠ Notes)) = pre := by
  induction pre with
  | nil => simp [List.takeWhile_cons]
  | cons a pre ih =>
    simp only [List.mem_cons, not_or] at h
    have ha : a ≠ Notes := fun e => h.1 e.symm
    rw [List.cons_append, List.takeWhile_cons, if_pos (by simpa using ha), ih h.2]

theorem processHelpOutput_lines (kept rest : List GoString)
    (hnl : ∀ l ∈ kept ++ rest, (10 : Byte) ∉ l) (hk : Notes ∉ kept)
    (hr : rest = [] ∨ rest.head? = some Notes) :
    ProcessHelpOutput ([(10 : Byte)].intercalate (kept ++ rest))
      = [(10 : Byte)].intercalate kept := by
  by_cases hne : kept ++ rest = []
  · have hk0 : kept = [] := (List.append_eq_nil.mp hne).1
    rw [hne, hk0]
    decide
  · rw [processHelpOutput_eq_ref, refProcessHelpOutput, splitOn_intercalate_lines _ hne hnl]
    rcases hr with rfl | hr
    · rw [List.append_nil, takeWhile_eq_self]
      intro x hx
      simp only [decide_eq_true_eq]
      exact fun e => hk (e ▸ hx)
    · cases rest with
      | nil => simp at hr
      | cons r rest =>
        simp only [List.head?_cons, Option.some.injEq] at hr
        subst hr
        rw [takeWhile_append_sentinel _ _ hk]

theorem splitOn_append_sep (c : Byte) (p q : GoString) :
    (p ++ c :: q).splitOn c = p.splitOn c ++ q.splitOn c := by
  induction p with
  | nil =>
    simp only [List.nil_append, List.splitOn, List.splitOnP_cons, List.splitOnP_nil]
    simp
  | cons b p ih =>
    simp only [List.splitOn, List.cons_append, List.splitOnP_cons] at ih ⊢
    split
    · rw [ih]; rfl
    · rw [ih]
      cases hs : List.splitOnP (fun x => x == c) p with
      | nil => exact absurd hs (List.splitOnP_ne_nil _ _)
      | cons hd tl => rfl

theorem processHelpOutput_cut (P Q : GoString) (hP : ∀ line ∈ P.splitOn 10, line ≠ Notes)
    (hQ : (Q.splitOn 10).head? = some Notes) : ProcessHelpOutput (P ++ 10 :: Q) = P := by
  rw [processHelpOutput_eq_ref, refProcessHelpOutput, splitOn_append_sep]
  cases hs : Q.splitOn 10 with
  | nil => exact absurd hs (splitOn_ne_nil _ _)
  | cons hd tl =>
    rw [hs] at hQ
    simp only [List.head?_cons, Option.some.injEq] at hQ
    subst hQ
    rw [takeWhile_append_sentinel _ _ (fun hm => hP _ hm rfl)]
    exact List.intercalate_splitOn P 10

theorem newline_not_mem_Notes : (10 : Byte) ∉ Notes := by decide

theorem head_splitOn_Notes : (Notes.splitOn 10).head? = some Notes := by
  rw [splitOn_of_not_mem newline_not_mem_Notes]; rfl

theorem head_splitOn_Notes_line (B : GoString) :
    ((Notes ++ 10 :: B).splitOn 10).head? = some Notes := by
  rw [splitOn_first newline_not_mem_Notes]; rfl

theorem str_sentinel_line : str "\nNotes\n" = 10 :: (Notes ++ [10]) := by decide

theorem str_sentinel_last : str "\nNotes" = 10 :: Notes := by decide

theorem processHelpOutput_trailer (P B : GoString) (hP : ∀ line ∈ P.splitOn 10, line ≠ Notes) :
    ProcessHelpOutput (P ++ str "\nNotes\n" ++ B) = P := by
  have e : P ++ str "\nNotes\n" ++ B = P ++ 10 :: (Notes ++ 10 :: B) := by
    rw [str_sentinel_line]; simp
  rw [e]
  exact processHelpOutput_cut P _ hP (head_splitOn_Notes_line B)

theorem processHelpOutput_trailer_last (P : GoString)
    (hP : ∀ line ∈ P.splitOn 10, line ≠ Notes) :
    ProcessHelpOutput (P ++ str "\nNotes") = P := by
  rw [str_sentinel_last]
  exact processHelpOutput_cut P _ hP head_splitOn_Notes

theorem processHelpOutput_sentinel_first (B : GoString) :
    ProcessHelpOutput (Notes ++ 10 :: B) = [] := by
  rw [processHelpOutput_eq_ref, refProcessHelpOutput, splitOn_first newline_not_mem_Notes]
  simp [List.takeWhile_cons, List.intercalate]

/-! ## Offsets of lines -/

theorem intercalate_cons_cons (c : Byte) (a b : GoString) (ls : List GoString) :
    [c].intercalate (a :: b :: ls) = a ++ c :: [c].intercalate (b :: ls) := by
  simp [List.intercalate, List.intersperse]

theorem intercalate_append_cons (c : Byte) (pre : List GoString) (hpre : pre ≠ [])
    (b : GoString) (post : List GoString) :
    [c].intercalate (pre ++ b :: post) = [c].intercalate pre ++ c :: [c].intercalate (b :: post) := by
  induction pre with
  | nil => exact absurd rfl hpre
  | cons a pre ih =>
    cases pre with
    | nil =>
      rw [List.singleton_append, intercalate_cons_cons]
      simp [List.intercalate]
    | cons a2 pre =>
      rw [List.cons_append, List.cons_append, intercalate_cons_cons, ← List.cons_append,
        ih (List.cons_ne_nil _ _), intercalate_cons_cons]
      simp

theorem length_intercalate (c : Byte) (ls : List GoString) (h : ls ≠ []) :
    ([c].intercalate ls).length + 1 = (ls.map (fun l => l.length + 1)).sum := by
  induction ls with
  | nil => exact absurd rfl h
  | cons a ls ih =>
    cases ls with
    | nil => simp [List.intercalate]
    | cons b ls =>
      rw [intercalate_cons_cons, List.map_cons, List.sum_cons, ← ih (List.cons_ne_nil _ _)]
      simp only [List.length_append, List.length_cons]
      omega

theorem processHelpOutput_at_sentinel (text : GoString) (k : Nat) (hk : 1 ≤ k)
    (hs : (text.splitOn 10)[k]? = some Notes) (hfirst : Notes ∉ (text.splitOn 10).take k)
    (hprose : k + 1 < (text.splitOn 10).length) :
    ∃ P B : GoString, text = P ++ 10 :: (Notes ++ 10 :: B) ∧
      P.length = lineStart (text.splitOn 10) k - 1 ∧ 1 ≤ lineStart (text.splitOn 10) k ∧
      ProcessHelpOutput text = P := by
  have hlen : k < (text.splitOn 10).length := by omega
  have hget : (text.splitOn 10)[k] = Notes := by
    rw [List.getElem?_eq_getElem hlen] at hs
    exact Option.some.inj hs
  have hsplit : text.splitOn 10
      = (text.splitOn 10).take k ++ Notes :: (text.splitOn 10).drop (k + 1) := by
    conv_lhs => rw [← List.take_append_drop k (text.splitOn 10)]
    rw [List.drop_eq_getElem_cons hlen, hget]
  have hpre : (text.splitOn 10).take k ≠ [] := by
    intro h
    have := congrArg List.length h
    simp only [List.length_take, List.length_nil] at this
    omega
  obtain ⟨q, post, hpost⟩ : ∃ q post, (text.splitOn 10).drop (k + 1) = q :: post := by
    cases hd : (text.splitOn 10).drop (k + 1) with
    | nil =>
      have := congrArg List.length hd
      simp only [List.length_drop, List.length_nil] at this
      omega
    | cons q post => exact ⟨q, post, rfl⟩
  have htext : text = [(10 : Byte)].intercalate ((text.splitOn 10).take k)
      ++ 10 :: (Notes ++ 10 :: [(10 : Byte)].intercalate (q :: post)) := by
    conv_lhs => rw [← List.intercalate_splitOn text 10, hsplit, hpost]
    rw [intercalate_append_cons 10 _ hpre, intercalate_cons_cons]
  refine ⟨_, _, htext, ?_, ?_, ?_⟩
  · have := length_intercalate 10 _ hpre
    unfold lineStart
    omega
  · have := length_intercalate 10 _ hpre
    unfold lineStart
    omega
  · rw [processHelpOutput_eq_ref, refProcessHelpOutput]
    conv_lhs => rw [hsplit, takeWhile_append_sentinel _ _ hfirst]

/-! ## Lemmas on `strings.TrimRight` -/

theorem trimRightASCII_eq (as : GoString) (fuel : Nat) (s : GoString) (h : s.length ≤ fuel) :
    trimRightASCII as fuel s = s.rdropWhile (fun b => as.contains b) := by
  induction fuel generalizing s with
  | zero =>
    have : s = [] := List.length_eq_zero.mp (Nat.le_zero.mp h)
    subst this
    simp [trimRightASCII]
  | succ n ih =>
    rcases List.eq_nil_or_concat s with rfl | ⟨l, c, rfl⟩
    · simp [trimRightASCII]
    · rw [List.concat_eq_append] at h ⊢
      simp only [trimRightASCII, List.getLast?_concat, List.dropLast_concat]
      have hl : l.length ≤ n := by
        simp only [List.length_append, List.length_singleton] at h
        omega
      by_cases hc : as.contains c = true
      · rw [if_pos hc, ih l hl, List.rdropWhile_concat_pos _ _ _ hc]
      · rw [if_neg hc, List.rdropWhile_concat_neg _ _ _ hc]

theorem TrimRight_eq (s cutset : GoString) :
    TrimRight s cutset = s.rdropWhile (fun b => cutset.contains b) := by
  unfold TrimRight
  split
  · rename_i h
    rcases h with rfl | rfl
    · simp
    · symm
      rw [List.rdropWhile_eq_self_iff]
      intro _
      simp
  · exact trimRightASCII_eq cutset _ s (Nat.le_refl _)

theorem cutset_contains (b : Byte) : (str " \t\n\r").contains b = isTrimmed b := by
  have h : str " \t\n\r" = [32, 9, 10, 13] := by decide
  rw [h]
  rw [Bool.eq_iff_iff]
  simp only [List.contains, List.elem_eq_mem, decide_eq_true_eq, List.mem_cons,
    List.mem_singleton, isTrimmed, Bool.or_eq_true, beq_iff_eq]
  tauto

theorem isTrimmed_iff (b : Byte) : isTrimmed b = true ↔ b ∈ str " \t\r\n" := by
  have h : str " \t\r\n" = [32, 9, 13, 10] := by decide
  rw [h]
  simp only [isTrimmed, Bool.or_eq_true, beq_iff_eq, List.mem_cons, List.mem_singleton]
  tauto

theorem formatHelpPreamble_eq_ref (text : GoString) :
    FormatHelpPreamble text = refFormatHelpPreamble text := by
  have h : str "\n\n" = [10, 10] := by decide
  have hf : (fun b => (str " \t\n\r").contains b) = isTrimmed := funext cutset_contains
  simp only [FormatHelpPreamble, refFormatHelpPreamble, TrimRight_eq, h, hf]

theorem rdropWhile_append_suffix (p : Byte → Bool) (s : GoString) :
    ∃ u : GoString, s = s.rdropWhile p ++ u ∧ ∀ b ∈ u, p b = true := by
  induction s using List.reverseRecOn with
  | nil => exact ⟨[], by simp, by simp⟩
  | append_singleton l c ih =>
    by_cases hc : p c = true
    · obtain ⟨u, hu, hp⟩ := ih
      refine ⟨u ++ [c], ?_, ?_⟩
      · rw [List.rdropWhile_concat_pos _ _ _ hc, ← List.append_assoc, ← hu]
      · intro b hb
        rcases List.mem_append.mp hb with hb | hb
        · exact hp b hb
        · rw [List.mem_singleton.mp hb]; exact hc
    · exact ⟨[], by rw [List.rdropWhile_concat_neg _ _ _ hc]; simp, by simp⟩

/-! ## The claims -/

/-- C1: for every string, `ProcessHelpOutput` equals the reference (split on the newline, keep
the lines strictly before the first line that is exactly `Notes`, join with the newline).  In
particular the text decomposes into kept lines, none of them the sentinel, followed by either
nothing or a block that starts with the sentinel line, and the result is the kept lines. -/
theorem processHelpOutput_refines_reference (text : GoString) :
    ProcessHelpOutput text = refProcessHelpOutput text ∧
    ∃ kept rest : List GoString,
      Split text 10 = kept ++ rest ∧
      text = [(10 : Byte)].intercalate (kept ++ rest) ∧
      (∀ l ∈ kept ++ rest, (10 : Byte) ∉ l) ∧
      Notes ∉ kept ∧ (rest = [] ∨ rest.head? = some Notes) ∧
      ProcessHelpOutput text = [(10 : Byte)].intercalate kept := by
  refine ⟨processHelpOutput_eq_ref text, ?_⟩
  refine ⟨(text.splitOn 10).takeWhile (fun line => decide (line ≠ Notes)),
    (text.splitOn 10).dropWhile (fun line => decide (line ≠ Notes)), ?_, ?_, ?_, ?_, ?_, ?_⟩
  · rw [List.takeWhile_append_dropWhile, Split_eq_splitOn]
  · rw [List.takeWhile_append_dropWhile]
    exact (List.intercalate_splitOn text 10).symm
  · rw [List.takeWhile_append_dropWhile]
    exact not_mem_of_mem_splitOn 10 text
  · exact sentinel_not_mem_takeWhile _
  · have h := List.head?_dropWhile_not (fun line : GoString => decide (line ≠ Notes))
      (text.splitOn 10)
    cases hd : (text.splitOn 10).dropWhile (fun line => decide (line ≠ Notes)) with
    | nil => exact Or.inl rfl
    | cons r rest =>
      right
      rw [hd] at h
      simp only [List.head?_cons, ne_eq, decide_not, Bool.not_eq_false',
        decide_eq_true_eq] at h
      rw [List.head?_cons, h]
  · exact processHelpOutput_eq_ref text

/-- C2: preservation.  When no newline-separated line of the text is exactly `Notes`,
`ProcessHelpOutput` returns the text unchanged. -/
theorem processHelpOutput_preserves (text : GoString)
    (h : ∀ line ∈ Split text 10, line ≠ Notes) : ProcessHelpOutput text = text :=
  processHelpOutput_of_no_sentinel text (Split_eq_splitOn text 10 ▸ h)

/-- Witness of C2: the empty text, a text that ends in a newline, and a text with
consecutive blank lines. -/
theorem processHelpOutput_preserves_witness :
    ((∀ line ∈ Split (str "Usage:\n\n\n  make <target>\n") 10, line ≠ Notes) ∧
      ProcessHelpOutput (str "Usage:\n\n\n  make <target>\n")
        = str "Usage:\n\n\n  make <target>\n") ∧
    ((∀ line ∈ Split (str "") 10, line ≠ Notes) ∧ ProcessHelpOutput (str "") = str "") :=
  ⟨⟨by decide, processHelpOutput_preserves _ (by decide)⟩,
   ⟨by decide, processHelpOutput_preserves _ (by decide)⟩⟩

/-- C3: idempotence.  Applying `ProcessHelpOutput` twice equals applying it once. -/
theorem processHelpOutput_idempotent (text : GoString) :
    ProcessHelpOutput (ProcessHelpOutput text) = ProcessHelpOutput text :=
  processHelpOutput_idem text

/-- C4: sentinel exactness.  `NotesRegex.MatchString` holds of exactly the string `Notes`;
the six near misses do not match, and `ProcessHelpOutput` returns each of the first five
unchanged when it is the whole input. -/
theorem notesRegex_exact :
    (∀ s : GoString, NotesRegex.MatchString s = true ↔ s = str "Notes") ∧
    NotesRegex.MatchString (str "Notes ") = false ∧
    NotesRegex.MatchString (str " Notes") = false ∧
    NotesRegex.MatchString (str "Notes:") = false ∧
    NotesRegex.MatchString (str "NotesExtended") = false ∧
    NotesRegex.MatchString (str "notes") = false ∧
    NotesRegex.MatchString (str "") = false ∧
    ProcessHelpOutput (str "Notes ") = str "Notes " ∧
    ProcessHelpOutput (str " Notes") = str " Notes" ∧
    ProcessHelpOutput (str "Notes:") = str "Notes:" ∧
    ProcessHelpOutput (str "NotesExtended") = str "NotesExtended" ∧
    ProcessHelpOutput (str "notes") = str "notes" :=
  ⟨matchString_iff, by decide, by decide, by decide, by decide, by decide, by decide,
    by decide, by decide, by decide, by decide, by decide⟩

/-- C5: the trailer is dropped unconditionally.  When no line of `P` is exactly `Notes`, then
for every `B` the text `P`, newline, `Notes`, newline, `B` is cut down to `P`, and so is `P`,
newline, `Notes`; the result is the same whatever follows the first sentinel line. -/
theorem processHelpOutput_drops_trailer (P B : GoString)
    (hP : ∀ line ∈ Split P 10, line ≠ Notes) :
    ProcessHelpOutput (P ++ str "\nNotes\n" ++ B) = P ∧
    ProcessHelpOutput (P ++ str "\nNotes") = P ∧
    ∀ B2 : GoString,
      ProcessHelpOutput (P ++ str "\nNotes\n" ++ B2) = ProcessHelpOutput (P ++ str "\nNotes\n" ++ B) := by
  have hP2 : ∀ line ∈ P.splitOn 10, line ≠ Notes := Split_eq_splitOn P 10 ▸ hP
  refine ⟨processHelpOutput_trailer P B hP2, processHelpOutput_trailer_last P hP2, ?_⟩
  intro B2
  rw [processHelpOutput_trailer P B hP2, processHelpOutput_trailer P B2 hP2]

/-- Witness of C5: a trailer that itself holds a further `Notes` line. -/
theorem processHelpOutput_drops_trailer_witness :
    (∀ line ∈ Split (str "Usage:\n  make") 10, line ≠ Notes) ∧
    ProcessHelpOutput (str "Usage:\n  make" ++ str "\nNotes\n" ++ str "a\nNotes\nb")
      = str "Usage:\n  make" :=
  ⟨by decide, (processHelpOutput_drops_trailer _ _ (by decide)).1⟩

/-- C6: a sentinel at position 0.  A text that is `Notes`, or that begins with `Notes` and a
newline, yields the empty string; so does the empty text. -/
theorem processHelpOutput_sentinel_at_start (text : GoString)
    (h : text = str "Notes" ∨ ∃ rest : GoString, text = str "Notes\n" ++ rest) :
    ProcessHelpOutput text = str "" ∧ ProcessHelpOutput (str "") = str "" := by
  refine ⟨?_, by decide⟩
  rcases h with rfl | ⟨rest, rfl⟩
  · decide
  · have e : str "Notes\n" ++ rest = Notes ++ 10 :: rest := by
      have : str "Notes\n" = Notes ++ [10] := by decide
      rw [this]; simp
    rw [e, processHelpOutput_sentinel_first]
    decide

/-- Witness of C6: the sentinel line first, then more lines. -/
theorem processHelpOutput_sentinel_at_start_witness :
    (str "Notes\nMakefile:\n  text" = str "Notes" ∨
      ∃ rest : GoString, str "Notes\nMakefile:\n  text" = str "Notes\n" ++ rest) ∧
    ProcessHelpOutput (str "Notes\nMakefile:\n  text") = str "" :=
  ⟨Or.inr ⟨str "Makefile:\n  text", by decide⟩,
   (processHelpOutput_sentinel_at_start _ (Or.inr ⟨str "Makefile:\n  text", by decide⟩)).1⟩

/-- C7, as stated, fails: in the case "Notes in middle" of the package's test table the
sentinel is line 1, preceded by one line and followed by prose; the prefix of the input through
and including the newline before the sentinel line is `Header` with that newline, but
`ProcessHelpOutput` returns `Header` without it. -/
theorem processHelpOutput_newline_counterexample :
    (Split notesInMiddle 10)[1]? = some Notes ∧
    Notes ∉ (Split notesInMiddle 10).take 1 ∧
    1 + 1 < (Split notesInMiddle 10).length ∧
    notesInMiddle.take (lineStart (Split notesInMiddle 10) 1) = str "Header\n" ∧
    ProcessHelpOutput notesInMiddle = str "Header" ∧
    ProcessHelpOutput notesInMiddle
      ≠ notesInMiddle.take (lineStart (Split notesInMiddle 10) 1) := by
  decide

/-- C7, amended: when the first line that is exactly `Notes` is line `k >= 1` and more lines
follow it, `ProcessHelpOutput` returns the prefix of the input up to, but not including, the
newline immediately before that line: the input is the result, then that newline, then the
sentinel line with its own newline and the trailing block, none of which is in the result. -/
theorem processHelpOutput_trims_help (text : GoString) (k : Nat) (hk : 1 ≤ k)
    (hs : (Split text 10)[k]? = some Notes) (hfirst : Notes ∉ (Split text 10).take k)
    (hprose : k + 1 < (Split text 10).length) :
    1 ≤ lineStart (Split text 10) k ∧
    ProcessHelpOutput text = text.take (lineStart (Split text 10) k - 1) ∧
    text.drop (lineStart (Split text 10) k - 1)
      = 10 :: text.drop (lineStart (Split text 10) k) ∧
    str "Notes\n" <+: text.drop (lineStart (Split text 10) k) ∧
    ProcessHelpOutput text ++ text.drop (lineStart (Split text 10) k - 1) = text := by
  rw [Split_eq_splitOn] at hs hfirst hprose ⊢
  obtain ⟨P, B, htext, hlen, hpos, hout⟩ := processHelpOutput_at_sentinel text k hk hs hfirst hprose
  have hstart : lineStart (text.splitOn 10) k = P.length + 1 := by omega
  have hN : str "Notes\n" = Notes ++ [10] := by decide
  rw [hout, ← hlen, hstart]
  refine ⟨Nat.succ_pos _, ?_, ?_, ?_, ?_⟩
  · conv_rhs => rw [htext]
    simp
  · conv_lhs => rw [htext]
    conv_rhs => rw [htext]
    rw [List.drop_left, ← List.drop_drop, List.drop_left]
    rfl
  · conv_rhs => rw [htext]
    rw [← List.drop_drop, List.drop_left, hN]
    exact ⟨B, by simp⟩
  · conv_lhs => rw [htext]
    rw [List.drop_left]
    exact htext.symm

/-- Witness of C7, amended: the cases "Notes in middle" (`k = 1`) and "Notes at end" (`k = 3`,
after a blank line) of the package's test table. -/
theorem processHelpOutput_trims_help_witness :
    (ProcessHelpOutput notesInMiddle = notesInMiddle.take (lineStart (Split notesInMiddle 10) 1 - 1)
      ∧ notesInMiddle.take (lineStart (Split notesInMiddle 10) 1 - 1) = str "Header") ∧
    (ProcessHelpOutput notesAtEnd = notesAtEnd.take (lineStart (Split notesAtEnd 10) 3 - 1)
      ∧ notesAtEnd.take (lineStart (Split notesAtEnd 10) 3 - 1) = str "Usage:\n  make <target>\n") :=
  ⟨⟨(processHelpOutput_trims_help notesInMiddle 1 (by decide) (by decide) (by decide)
      (by decide)).2.1, by decide⟩,
   ⟨(processHelpOutput_trims_help notesAtEnd 3 (by decide) (by decide) (by decide)
      (by decide)).2.1, by decide⟩⟩

/-- C8: a carriage return and a newline are not one separator.  The line `Notes` followed by a
carriage return is not a sentinel, and a text in which `Notes` occurs only on lines that end in
a carriage return has no sentinel line and is returned unchanged, carriage returns included. -/
theorem processHelpOutput_crlf (text : GoString)
    (hcr : ∀ line ∈ Split text 10, Notes <:+: line → line.getLast? = some 13) :
    NotesRegex.MatchString (str "Notes\r") = false ∧
    (∀ line ∈ Split text 10, line ≠ Notes) ∧
    ProcessHelpOutput text = text ∧
    (ProcessHelpOutput text).count 13 = text.count 13 := by
  have h : ∀ line ∈ Split text 10, line ≠ Notes := by
    intro line hl e
    have h13 := hcr line hl ⟨[], [], by simp [e]⟩
    rw [e] at h13
    revert h13
    decide
  have hout := processHelpOutput_of_no_sentinel text (Split_eq_splitOn text 10 ▸ h)
  exact ⟨by decide, h, hout, by rw [hout]⟩

/-- Witness of C8: `Header`, `Notes` and `Content` with the first two lines ended by a
carriage return and a newline. -/
theorem processHelpOutput_crlf_witness :
    (∀ line ∈ Split (str "Header\r\nNotes\r\nContent") 10,
      Notes <:+: line → line.getLast? = some 13) ∧
    ProcessHelpOutput (str "Header\r\nNotes\r\nContent") = str "Header\r\nNotes\r\nContent" :=
  have h : ∀ line ∈ Split (str "Header\r\nNotes\r\nContent") 10,
      Notes <:+: line → line.getLast? = some 13 := by
    have hs : Split (str "Header\r\nNotes\r\nContent") 10
        = [str "Header\r", str "Notes\r", str "Content"] := by decide
    rw [hs]
    intro line hl hinf
    simp only [List.mem_cons, List.mem_singleton, List.not_mem_nil, or_false] at hl
    rcases hl with rfl | rfl | rfl
    · decide
    · decide
    · exfalso
      revert hinf
      decide
  ⟨h, (processHelpOutput_crlf _ h).2.2.1⟩

/-- C9: `FormatHelpPreamble` equals the reference.  The text is `t` followed by a suffix `u` of
spaces, tabs, carriage returns and newlines, where `t` does not end in one of these four bytes;
the result is empty when `t` is empty and `t` with two newlines otherwise.  No other byte is
trimmed (vertical tab, form feed, a no-break space), and whitespace before the last other byte
stays. -/
theorem formatHelpPreamble_refines_reference (text : GoString) :
    FormatHelpPreamble text = refFormatHelpPreamble text ∧
    (∃ t u : GoString, text = t ++ u ∧ (∀ b ∈ u, b ∈ str " \t\r\n") ∧
      (∀ c ∈ t.getLast?, c ∉ str " \t\r\n") ∧
      FormatHelpPreamble text = if t = [] then str "" else t ++ str "\n\n") ∧
    FormatHelpPreamble (str "   \t\n") = str "" ∧
    FormatHelpPreamble (str "Hello") = str "Hello\n\n" ∧
    FormatHelpPreamble (str "Line 1\nLine 2\n\n\n") = str "Line 1\nLine 2\n\n" ∧
    FormatHelpPreamble (str "a\x0b") = str "a\x0b\n\n" ∧
    FormatHelpPreamble (str "a\x0c") = str "a\x0c\n\n" ∧
    FormatHelpPreamble (str "a\u00a0") = str "a\u00a0\n\n" ∧
    str "\u00a0" = [0xC2, 0xA0] ∧
    FormatHelpPreamble (str " \n a \t b \r\n") = str " \n a \t b\n\n" := by
  refine ⟨formatHelpPreamble_eq_ref text, ?_, by decide, by decide, by decide, by decide,
    by decide, by decide, by decide, by decide⟩
  obtain ⟨u, hu, hp⟩ := rdropWhile_append_suffix isTrimmed text
  refine ⟨text.rdropWhile isTrimmed, u, hu, ?_, ?_, ?_⟩
  · intro b hb
    exact (isTrimmed_iff b).mp (hp b hb)
  · intro c hc hmem
    have hne : text.rdropWhile isTrimmed ≠ [] := by
      intro e
      rw [e] at hc
      simp at hc
    have hlast := List.rdropWhile_last_not isTrimmed text hne
    rw [List.getLast?_eq_getLast _ hne] at hc
    simp only [Option.mem_def, Option.some.injEq] at hc
    rw [hc] at hlast
    exact hlast ((isTrimmed_iff c).mpr hmem)
  · rw [formatHelpPreamble_eq_ref, refFormatHelpPreamble]
    rfl

/-- C10: the normalised trailing separator.  `FormatHelpPreamble` returns the empty string
exactly when the text consists only of spaces, tabs, carriage returns and newlines; any other
result has length at least 3 and ends in a byte that is none of these four followed by exactly
two newlines. -/
theorem formatHelpPreamble_separator (text : GoString) :
    (FormatHelpPreamble text = str "" ↔ ∀ b ∈ text, b ∈ str " \t\r\n") ∧
    (FormatHelpPreamble text = str "" ∨
      (3 ≤ (FormatHelpPreamble text).length ∧
        ∃ (t : GoString) (c : Byte), FormatHelpPreamble text = t ++ c :: str "\n\n" ∧
          c ∉ str " \t\r\n")) := by
  have hemp : str "" = [] := by decide
  have hnn : str "\n\n" = [10, 10] := by decide
  rw [formatHelpPreamble_eq_ref, refFormatHelpPreamble, hemp, hnn]
  by_cases ht : text.rdropWhile isTrimmed = []
  · simp only [ht, ↓reduceIte, true_iff, true_or, and_true]
    intro b hb
    exact (isTrimmed_iff b).mp (List.rdropWhile_eq_nil_iff.mp ht b hb)
  · simp only [ht, ↓reduceIte]
    refine ⟨⟨fun h => by simp at h, fun h => absurd ?_ ht⟩, Or.inr ⟨?_, ?_⟩⟩
    · exact List.rdropWhile_eq_nil_iff.mpr (fun b hb => (isTrimmed_iff b).mpr (h b hb))
    · have : 1 ≤ (text.rdropWhile isTrimmed).length := by
        rcases hl : text.rdropWhile isTrimmed with _ | ⟨a, l⟩
        · exact absurd hl ht
        · simp
      simp only [List.length_append, List.length_cons, List.length_nil]
      omega
    · have hlast := List.rdropWhile_last_not isTrimmed text ht
      refine ⟨(text.rdropWhile isTrimmed).dropLast, (text.rdropWhile isTrimmed).getLast ht, ?_, ?_⟩
      · conv_lhs => rw [← List.dropLast_append_getLast ht]
        simp
      · exact fun hm => hlast ((isTrimmed_iff _).mpr hm)

/-! ## Further lemmas on the two functions -/

theorem intercalate_append_left (c : Byte) (a b : List GoString) :
    [c].intercalate a <+: [c].intercalate (a ++ b) := by
  cases b with
  | nil => rw [List.append_nil]
  | cons r b =>
    by_cases ha : a = []
    · subst ha
      simp [List.intercalate]
    · rw [intercalate_append_cons c a ha]
      exact List.prefix_append _ _

theorem processHelpOutput_prefix_text (text : GoString) : ProcessHelpOutput text <+: text := by
  have h := intercalate_append_left 10
    ((text.splitOn 10).takeWhile (fun line => decide (line ≠ Notes)))
    ((text.splitOn 10).dropWhile (fun line => decide (line ≠ Notes)))
  rw [List.takeWhile_append_dropWhile, List.intercalate_splitOn] at h
  rw [processHelpOutput_eq_ref, refProcessHelpOutput]
  exact h

theorem Notes_prefix_intercalate (post : List GoString) :
    Notes <+: [(10 : Byte)].intercalate (Notes :: post) := by
  cases post with
  | nil => simp [List.intercalate]
  | cons q post =>
    rw [intercalate_cons_cons]
    exact List.prefix_append _ _

theorem processHelpOutput_before_sentinel (text : GoString) (k : Nat) (hk : 1 ≤ k)
    (hs : (text.splitOn 10)[k]? = some Notes) (hfirst : Notes ∉ (text.splitOn 10).take k) :
    ∃ P Q : GoString, text = P ++ 10 :: Q ∧ Notes <+: Q ∧
      P.length + 1 = lineStart (text.splitOn 10) k ∧ ProcessHelpOutput text = P := by
  have hlen : k < (text.splitOn 10).length := by
    rcases Nat.lt_or_ge k (text.splitOn 10).length with h | h
    · exact h
    · rw [List.getElem?_eq_none h] at hs
      cases hs
  have hget : (text.splitOn 10)[k] = Notes := by
    rw [List.getElem?_eq_getElem hlen] at hs
    exact Option.some.inj hs
  have hsplit : text.splitOn 10
      = (text.splitOn 10).take k ++ Notes :: (text.splitOn 10).drop (k + 1) := by
    conv_lhs => rw [← List.take_append_drop k (text.splitOn 10)]
    rw [List.drop_eq_getElem_cons hlen, hget]
  have hpre : (text.splitOn 10).take k ≠ [] := by
    intro h
    have := congrArg List.length h
    simp only [List.length_take, List.length_nil] at this
    omega
  have htext : text = [(10 : Byte)].intercalate ((text.splitOn 10).take k)
      ++ 10 :: [(10 : Byte)].intercalate (Notes :: (text.splitOn 10).drop (k + 1)) := by
    conv_lhs => rw [← List.intercalate_splitOn text 10, hsplit]
    rw [intercalate_append_cons 10 _ hpre]
  refine ⟨_, _, htext, Notes_prefix_intercalate _, ?_, ?_⟩
  · exact length_intercalate 10 _ hpre
  · rw [processHelpOutput_eq_ref, refProcessHelpOutput]
    conv_lhs => rw [hsplit, takeWhile_append_sentinel _ _ hfirst]

theorem processHelpOutput_sentinel_free (text : GoString) :
    ∀ line ∈ (ProcessHelpOutput text).splitOn 10, line ≠ Notes := by
  rw [processHelpOutput_eq_ref, refProcessHelpOutput]
  apply intercalate_notes_free
  · intro l hl
    exact not_mem_of_mem_splitOn 10 text l (List.takeWhile_subset _ hl)
  · exact sentinel_not_mem_takeWhile _

theorem refFormatHelpPreamble_idem (x : GoString) :
    refFormatHelpPreamble (refFormatHelpPreamble x) = refFormatHelpPreamble x := by
  unfold refFormatHelpPreamble
  by_cases ht : x.rdropWhile isTrimmed = []
  · simp [ht]
  · have h10 : isTrimmed 10 = true := by decide
    have e : (x.rdropWhile isTrimmed ++ [10, 10]).rdropWhile isTrimmed
        = x.rdropWhile isTrimmed := by
      have : x.rdropWhile isTrimmed ++ [10, 10] = (x.rdropWhile isTrimmed ++ [10]) ++ [10] := by
        simp
      rw [this, List.rdropWhile_concat_pos _ _ _ h10, List.rdropWhile_concat_pos _ _ _ h10,
        List.rdropWhile_idempotent]
    simp only [ht, ↓reduceIte, e]

theorem refFormatHelpPreamble_no_third_newline (x : GoString) :
    ¬ ([10, 10, 10] <:+ refFormatHelpPreamble x) := by
  unfold refFormatHelpPreamble
  by_cases ht : x.rdropWhile isTrimmed = []
  · simp only [ht, ↓reduceIte]
    intro h
    have := List.IsSuffix.length_le h
    simp at this
  · simp only [ht, ↓reduceIte]
    intro h
    have hlast := List.rdropWhile_last_not isTrimmed x ht
    obtain ⟨pre, hpre⟩ := h
    have e1 : pre ++ [10, 10, 10] = (pre ++ [10]) ++ [10, 10] := by simp
    rw [e1] at hpre
    have e2 := List.append_cancel_right hpre
    have : (x.rdropWhile isTrimmed).getLast ht = 10 := by
      simp only [← e2, List.getLast_append_singleton]
    rw [this] at hlast
    exact hlast (by decide)

/-! ## The claims, continued -/

/-- C11: idempotence on the separator.  Formatting a formatted preamble changes nothing: the
empty string stays empty, and any other result keeps exactly two trailing newlines (it never
ends in three, so nothing accumulates). -/
theorem formatHelpPreamble_idempotent (x : GoString) :
    FormatHelpPreamble (FormatHelpPreamble x) = FormatHelpPreamble x ∧
    (FormatHelpPreamble (FormatHelpPreamble x) = str "" ↔ FormatHelpPreamble x = str "") ∧
    (FormatHelpPreamble x ≠ str "" → str "\n\n" <:+ FormatHelpPreamble (FormatHelpPreamble x)) ∧
    ¬ (str "\n\n\n" <:+ FormatHelpPreamble (FormatHelpPreamble x)) := by
  have hidem : FormatHelpPreamble (FormatHelpPreamble x) = FormatHelpPreamble x := by
    rw [formatHelpPreamble_eq_ref, formatHelpPreamble_eq_ref, refFormatHelpPreamble_idem]
  have h3 : str "\n\n\n" = [10, 10, 10] := by decide
  have h2 : str "\n\n" = [10, 10] := by decide
  have h0 : str "" = [] := by decide
  refine ⟨hidem, by rw [hidem], ?_, ?_⟩
  · rw [hidem, formatHelpPreamble_eq_ref, refFormatHelpPreamble, h2, h0]
    intro hne
    by_cases ht : x.rdropWhile isTrimmed = []
    · simp [ht] at hne
    · simp only [ht, ↓reduceIte]
      exact List.suffix_append _ _
  · rw [hidem, formatHelpPreamble_eq_ref, h3]
    exact refFormatHelpPreamble_no_third_newline x

/-- Witness of C11: a preamble with trailing blanks and newlines, formatted twice. -/
theorem formatHelpPreamble_idempotent_witness :
    FormatHelpPreamble (str "Hello  \n\n") ≠ str "" ∧
    FormatHelpPreamble (FormatHelpPreamble (str "Hello  \n\n")) = str "Hello\n\n" ∧
    str "\n\n" <:+ FormatHelpPreamble (FormatHelpPreamble (str "Hello  \n\n")) :=
  ⟨by decide, by decide, (formatHelpPreamble_idempotent (str "Hello  \n\n")).2.2.1 (by decide)⟩

/-- C16: the result of `ProcessHelpOutput` is a prefix of its input, hence never longer, and
when the first sentinel line is line `k >= 1` the result is the input up to, but not including,
the newline that immediately precedes that line. -/
theorem processHelpOutput_initial_segment (text : GoString) :
    ProcessHelpOutput text <+: text ∧
    (ProcessHelpOutput text).length ≤ text.length ∧
    ∀ k : Nat, 1 ≤ k → (Split text 10)[k]? = some Notes → Notes ∉ (Split text 10).take k →
      ProcessHelpOutput text = text.take (lineStart (Split text 10) k - 1) ∧
      text[lineStart (Split text 10) k - 1]? = some 10 ∧
      Notes <+: text.drop (lineStart (Split text 10) k) := by
  refine ⟨processHelpOutput_prefix_text text,
    List.IsPrefix.length_le (processHelpOutput_prefix_text text), ?_⟩
  intro k hk hs hfirst
  rw [Split_eq_splitOn] at hs hfirst ⊢
  obtain ⟨P, Q, htext, hQ, hlen, hout⟩ := processHelpOutput_before_sentinel text k hk hs hfirst
  rw [hout, ← hlen, Nat.add_sub_cancel]
  refine ⟨?_, ?_, ?_⟩
  · conv_rhs => rw [htext]
    simp
  · conv_lhs => rw [htext]
    rw [List.getElem?_append_right (Nat.le_refl _)]
    simp
  · conv_rhs => rw [htext]
    rw [← List.drop_drop, List.drop_left]
    exact hQ

/-- Witness of C16: the sentinel as the last, unterminated line, after two other lines. -/
theorem processHelpOutput_initial_segment_witness :
    (Split (str "Usage:\n  make\nNotes") 10)[2]? = some Notes ∧
    Notes ∉ (Split (str "Usage:\n  make\nNotes") 10).take 2 ∧
    ProcessHelpOutput (str "Usage:\n  make\nNotes")
      = (str "Usage:\n  make\nNotes").take (lineStart (Split (str "Usage:\n  make\nNotes") 10) 2 - 1) ∧
    (str "Usage:\n  make\nNotes").take (lineStart (Split (str "Usage:\n  make\nNotes") 10) 2 - 1)
      = str "Usage:\n  make" :=
  ⟨by decide, by decide,
    ((processHelpOutput_initial_segment (str "Usage:\n  make\nNotes")).2.2 2 (by decide) (by decide)
      (by decide)).1, by decide⟩

/-- C17: no newline-separated line of the result of `ProcessHelpOutput` is exactly `Notes`,
so the pattern matches none of them. -/
theorem processHelpOutput_has_no_sentinel (text : GoString) :
    ∀ line ∈ Split (ProcessHelpOutput text) 10,
      line ≠ Notes ∧ NotesRegex.MatchString line = false := by
  intro line hl
  rw [Split_eq_splitOn] at hl
  have hne := processHelpOutput_sentinel_free text line hl
  refine ⟨hne, ?_⟩
  rw [matchString_eq]
  simpa using hne

/-- Witness of C17: the line that is left of the test case "Notes in middle". -/
theorem processHelpOutput_has_no_sentinel_witness :
    str "Header" ∈ Split (ProcessHelpOutput notesInMiddle) 10 ∧
    str "Header" ≠ Notes ∧ NotesRegex.MatchString (str "Header") = false :=
  ⟨by decide, processHelpOutput_has_no_sentinel notesInMiddle (str "Header") (by decide)⟩

/-- C18: with carriage-return-newline line endings the sentinel can still match.  In `Header`,
carriage return, newline, `Notes` the last line is unterminated and is exactly `Notes`, so the
trailer is cut and the carriage return of the line before it is left at the end of the result. -/
theorem processHelpOutput_crlf_last_line :
    Split (str "Header\r\nNotes") 10 = [str "Header\r", str "Notes"] ∧
    NotesRegex.MatchString (str "Notes") = true ∧
    NotesRegex.MatchString (str "Header\r") = false ∧
    ProcessHelpOutput (str "Header\r\nNotes") = str "Header\r" ∧
    (ProcessHelpOutput (str "Header\r\nNotes")).getLast? = some 13 := by
  decide

end Helpproc

namespace Makeexec

open Helpproc

/-! ## Lemmas on `contains` -/

theorem infix_iff_occursFrom (s substr : GoString) : substr <:+: s ↔ occursFrom s substr 0 := by
  constructor
  · rintro ⟨a, b, rfl⟩
    refine ⟨a.length, Nat.zero_le _, ?_, ?_⟩
    · simp only [List.length_append]; omega
    · rw [List.append_assoc, List.drop_left, List.take_left]
  · rintro ⟨j, _, hj, he⟩
    refine ⟨s.take j, s.drop (j + substr.length), ?_⟩
    conv_rhs => rw [← List.take_append_drop j s, ← List.take_append_drop substr.length (s.drop j)]
    rw [he, List.drop_drop, List.append_assoc, Nat.add_comm j]

theorem slice_in_range (s substr : GoString) (i : Nat) (h : i + substr.length ≤ s.length) :
    slice s i (i + len substr) = Run.done ((s.drop i).take substr.length) := by
  unfold slice len
  have hc : (0 : Int) ≤ i ∧ (i : Int) ≤ i + (substr.length : Int)
      ∧ (i : Int) + (substr.length : Int) ≤ (s.length : Int) := by omega
  rw [if_pos hc]
  simp

theorem loop_spec (s substr : GoString) (trips i : Nat) (h : s.length + 1 ≤ i + trips) :
    ∃ b : Bool, containsHelper.loop s substr trips i = Run.done b ∧
      (b = true ↔ occursFrom s substr i) := by
  induction trips generalizing i with
  | zero =>
    refine ⟨false, ?_, ?_⟩
    · simp only [containsHelper.loop, len]
      rw [if_neg (by omega)]
    · simp only [Bool.false_eq_true, false_iff]
      rintro ⟨j, hij, hj, _⟩
      omega
  | succ n ih =>
    by_cases hb : (i : Int) ≤ len s - len substr
    · have hr : i + substr.length ≤ s.length := by
        unfold len at hb
        omega
      by_cases hw : (s.drop i).take substr.length = substr
      · refine ⟨true, ?_, ?_⟩
        · simp only [containsHelper.loop]
          rw [if_pos hb, slice_in_range s substr i hr]
          simp only [hw, ↓reduceIte]
        · simp only [true_iff]
          exact ⟨i, Nat.le_refl _, hr, hw⟩
      · obtain ⟨b, hb1, hb2⟩ := ih (i + 1) (by omega)
        refine ⟨b, ?_, ?_⟩
        · simp only [containsHelper.loop]
          rw [if_pos hb, slice_in_range s substr i hr]
          simp only [hw, ↓reduceIte]
          exact_mod_cast hb1
        · rw [hb2]
          constructor
          · rintro ⟨j, hij, hj, he⟩
            exact ⟨j, by omega, hj, he⟩
          · rintro ⟨j, hij, hj, he⟩
            refine ⟨j, ?_, hj, he⟩
            rcases Nat.lt_or_ge i j with hlt | hge
            · exact hlt
            · have : j = i := by omega
              subst this
              exact absurd he hw
    · refine ⟨false, ?_, ?_⟩
      · simp only [containsHelper.loop]
        rw [if_neg hb]
      · simp only [Bool.false_eq_true, false_iff]
        rintro ⟨j, hij, hj, _⟩
        unfold len at hb
        omega

theorem containsHelper_spec (s substr : GoString) :
    ∃ b : Bool, containsHelper s substr = Run.done b ∧ (b = true ↔ substr <:+: s) := by
  obtain ⟨b, h1, h2⟩ := loop_spec s substr (s.length + 1) 0 (by omega)
  exact ⟨b, by simpa [containsHelper] using h1, by rw [h2, infix_iff_occursFrom]⟩

theorem contains_spec (s substr : GoString) :
    ∃ b : Bool, contains s substr = Run.done b ∧ (b = true ↔ substr <:+: s) := by
  unfold contains
  by_cases hl : len s ≥ len substr
  · rw [if_pos hl]
    by_cases he : s = substr
    · rw [if_pos he]
      exact ⟨true, rfl, by simp [he]⟩
    · rw [if_neg he]
      by_cases hp : len s > 0
      · rw [if_pos hp]
        exact containsHelper_spec s substr
      · rw [if_neg hp]
        refine ⟨false, rfl, ?_⟩
        simp only [Bool.false_eq_true, false_iff]
        intro hinf
        have hs : s = [] := by
          unfold len at hp
          exact List.length_eq_zero.mp (by omega)
        subst hs
        have := List.IsInfix.length_le hinf
        have : substr = [] := List.length_eq_zero.mp (by simpa using this)
        exact he this.symm
  · rw [if_neg hl]
    refine ⟨false, rfl, ?_⟩
    simp only [Bool.false_eq_true, false_iff]
    intro hinf
    have := List.IsInfix.length_le hinf
    unfold len at hl
    omega

/-! ## The claims on the test helpers -/

/-- C19: `contains(s, substr)` returns true exactly when `substr` occurs in `s` as a contiguous
substring, and false otherwise; the empty `substr` is found in every `s`.  `containsHelper`
always returns, without slicing out of range, also when `substr` is longer than `s`, where it
returns false. -/
theorem contains_correct (s substr : GoString) :
    (contains s substr = Run.done true ↔ substr <:+: s) ∧
    (contains s substr = Run.done false ↔ ¬ substr <:+: s) ∧
    contains s (str "") = Run.done true ∧
    (containsHelper s substr = Run.done true ↔ substr <:+: s) ∧
    (containsHelper s substr = Run.done false ↔ ¬ substr <:+: s) ∧
    (s.length < substr.length → containsHelper s substr = Run.done false) := by
  have key : ∀ (r : Run Bool), (∃ b : Bool, r = Run.done b ∧ (b = true ↔ substr <:+: s)) →
      (r = Run.done true ↔ substr <:+: s) ∧ (r = Run.done false ↔ ¬ substr <:+: s) := by
    rintro r ⟨b, rfl, hb⟩
    cases b with
    | true =>
      have := hb.mp rfl
      simp [this]
    | false =>
      have : ¬ substr <:+: s := fun h => Bool.noConfusion (hb.mpr h)
      simp [this]
  have hc := key _ (contains_spec s substr)
  have hh := key _ (containsHelper_spec s substr)
  refine ⟨hc.1, hc.2, ?_, hh.1, hh.2, ?_⟩
  · obtain ⟨b, hb1, hb2⟩ := contains_spec s (str "")
    have : b = true := hb2.mpr ⟨[], s, by simp [str]⟩
    rw [hb1, this]
  · intro hlt
    rw [hh.2]
    intro hinf
    have := List.IsInfix.length_le hinf
    omega

/-- Witness of C19: a `substr` that is longer than `s`, and the substrings the test
`TestSerializeResult` looks for. -/
theorem contains_correct_witness :
    containsHelper (str "ab") (str "abc") = Run.done false ∧
    contains (str "ab") (str "abc") = Run.done false ∧
    contains (str "") (str "") = Run.done true ∧
    contains (str "\"exit_code\":0,") (str "exit_code") = Run.done true :=
  ⟨(contains_correct (str "ab") (str "abc")).2.2.2.2.2 (by decide), by decide, by decide,
    by decide⟩

/-! ## Lemmas on the serialization -/

theorem toNat_toUInt8 (n : Nat) : (n.toUInt8).toNat = n % 256 := by
  simp [Nat.toUInt8, UInt8.ofNat, UInt8.toNat]

theorem toUInt8_toNat (b : Byte) : b.toNat.toUInt8 = b := by
  apply UInt8.ext
  rw [toNat_toUInt8]
  exact Nat.mod_eq_of_lt (UInt8.toNat_lt b)

theorem hexValue_hexDigit : ∀ n, n < 16 → hexValue (hexDigit n) = some n := by decide

theorem hexDigit_toNat : ∀ n, n < 16 → 32 ≤ (hexDigit n).toNat := by decide

theorem hexValue_zero : hexValue 48 = some 0 := by decide

theorem utf8Lead_lo {b need lo hi : Nat} (h : utf8Lead b = some (need, lo, hi)) : 128 ≤ lo := by
  unfold utf8Lead at h
  repeat' split at h
  all_goals first
    | (simp only [Option.some.injEq, Prod.mk.injEq] at h; omega)
    | exact absurd h (by simp)

theorem utf8Next_lo {need n lo hi : Nat} (h : utf8Next need = some (n, lo, hi)) : 128 ≤ lo := by
  unfold utf8Next at h
  split at h
  · exact absurd h (by simp)
  · simp only [Option.some.injEq, Prod.mk.injEq] at h
    omega

theorem ne_of_toNat_ge {b : Byte} (h : 128 ≤ b.toNat) : b ≠ 34 ∧ b ≠ 92 := by
  constructor
  · intro e
    rw [e] at h
    revert h
    decide
  · intro e
    rw [e] at h
    revert h
    decide

/-- The reader takes the escape of an ASCII byte for that byte. -/
theorem read_ascii (b : Byte) (h : b.toNat < 128) (X : GoString) :
    readStringFrom StrState.plain (jsonEscapeByte b ++ X)
      = (readStringFrom StrState.plain X).map (fun p => (b :: p.1, p.2)) := by
  have e34 : escapeValue 34 = some 34 := by decide
  have e92 : escapeValue 92 = some 92 := by decide
  unfold jsonEscapeByte
  by_cases h34 : b = 34
  · subst h34
    simp [readStringFrom, e34]
  · by_cases h92 : b = 92
    · subst h92
      simp [readStringFrom, e92]
    · by_cases hc : b.toNat < 32
      · have hh := hexValue_hexDigit (b.toNat / 16) (by omega)
        have hl := hexValue_hexDigit (b.toNat % 16) (Nat.mod_lt _ (by decide))
        have hv : b.toNat / 16 * 16 + b.toNat % 16 = b.toNat := Nat.div_add_mod' _ _
        have hu : utf8OfNat b.toNat = [b] := by
          unfold utf8OfNat
          rw [if_pos h, toUInt8_toNat]
        have hs : ¬ (0xD800 ≤ b.toNat ∧ b.toNat ≤ 0xDFFF) := by omega
        simp [h34, h92, hc, readStringFrom, hh, hl, hv, hu, hs, hexValue_zero]
      · simp [h34, h92, hc, h, readStringFrom]

/-- The reader takes the escape of U+FFFD for the bytes of U+FFFD. -/
theorem read_bad (X : GoString) :
    readStringFrom StrState.plain (str "\\ufffd" ++ X)
      = (readStringFrom StrState.plain X).map
          (fun p => ([0xEF, 0xBF, 0xBD] ++ p.1, p.2)) := by
  have h : str "\\ufffd" = [92, 117, 102, 102, 102, 100] := by decide
  have hf : hexValue 102 = some 15 := by decide
  have hd : hexValue 100 = some 13 := by decide
  have hu : utf8OfNat 65533 = [0xEF, 0xBF, 0xBD] := by decide
  rw [h]
  simp [readStringFrom, hf, hd, hu]

theorem read_flush (pend X : GoString) :
    readStringFrom StrState.plain (flush (str "\\ufffd") pend ++ X)
      = (readStringFrom StrState.plain X).map
          (fun p => (flush [0xEF, 0xBF, 0xBD] pend ++ p.1, p.2)) := by
  induction pend with
  | nil =>
    simp only [flush, List.flatMap_nil, List.nil_append]
    cases readStringFrom StrState.plain X <;> rfl
  | cons c pend ih =>
    have e1 : flush (str "\\ufffd") (c :: pend) = str "\\ufffd" ++ flush (str "\\ufffd") pend := by
      simp [flush]
    have e2 : flush [0xEF, 0xBF, 0xBD] (c :: pend)
        = [0xEF, 0xBF, 0xBD] ++ flush [0xEF, 0xBF, 0xBD] pend := by
      simp [flush]
    rw [e1, e2, List.append_assoc, read_bad, ih]
    cases readStringFrom StrState.plain X <;> simp

theorem pending_none (pend : GoString) : Pending pend none := by
  intro _ _ _ e
  cases e

theorem pending_lead (b : Byte) (h : ¬ b.toNat < 128) (t : Nat × Nat × Nat)
    (hl : utf8Lead b.toNat = some t) : Pending [b] (some t) := by
  intro need lo hi e
  cases e
  refine ⟨utf8Lead_lo hl, fun X => ?_⟩
  have hne := ne_of_toNat_ge (by omega : 128 ≤ b.toNat)
  have hc : ¬ b.toNat < 32 := by omega
  show readStringFrom StrState.plain (b :: X) = _
  simp only [readStringFrom, hne.1, hne.2, hc, h, ↓reduceIte, hl, StrState.ofUtf8]
  rfl

theorem pending_next (pend : GoString) (need lo hi : Nat) (b : Byte)
    (hp : Pending pend (some (need, lo, hi))) (hr : lo ≤ b.toNat ∧ b.toNat ≤ hi)
    (t : Nat × Nat × Nat) (hn : utf8Next need = some t) : Pending (pend ++ [b]) (some t) := by
  intro n2 lo2 hi2 e
  cases e
  refine ⟨utf8Next_lo hn, fun X => ?_⟩
  obtain ⟨_, hread⟩ := hp need lo hi rfl
  rw [List.append_assoc, List.singleton_append, hread]
  simp only [readStringFrom, hr, and_self, ↓reduceIte, hn, StrState.ofUtf8]
  cases readStringFrom (StrState.tail n2 lo2 hi2) X <;> simp

theorem pending_last (pend : GoString) (need lo hi : Nat) (b : Byte)
    (hp : Pending pend (some (need, lo, hi))) (hr : lo ≤ b.toNat ∧ b.toNat ≤ hi)
    (hn : utf8Next need = none) (X : GoString) :
    readStringFrom StrState.plain (pend ++ b :: X)
      = (readStringFrom StrState.plain X).map (fun p => (pend ++ b :: p.1, p.2)) := by
  obtain ⟨_, hread⟩ := hp need lo hi rfl
  rw [hread]
  simp only [readStringFrom, hr, and_self, ↓reduceIte, hn, StrState.ofUtf8]
  cases readStringFrom StrState.plain X <;> simp

theorem read_coerce (s rest : GoString) (pend : GoString) (t : Option (Nat × Nat × Nat))
    (hp : Pending pend t) :
    readStringFrom StrState.plain
        (coerceFrom jsonEscapeByte (str "\\ufffd") pend t s ++ 34 :: rest)
      = some (coerceFrom (fun b => [b]) [0xEF, 0xBF, 0xBD] pend t s, rest) := by
  induction s generalizing pend t with
  | nil =>
    cases t with
    | none => simp [coerceFrom, readStringFrom]
    | some p =>
      have e1 : coerceFrom jsonEscapeByte (str "\\ufffd") pend (some p) []
          = flush (str "\\ufffd") pend := rfl
      have e2 : coerceFrom (fun b => [b]) [0xEF, 0xBF, 0xBD] pend (some p) []
          = flush [0xEF, 0xBF, 0xBD] pend := rfl
      rw [e1, e2, read_flush]
      simp [readStringFrom]
  | cons b s ih =>
    have start : readStringFrom StrState.plain
        ((if b.toNat < 128 then
            jsonEscapeByte b ++ coerceFrom jsonEscapeByte (str "\\ufffd") [] none s
          else
            match utf8Lead b.toNat with
            | none => str "\\ufffd" ++ coerceFrom jsonEscapeByte (str "\\ufffd") [] none s
            | some t => coerceFrom jsonEscapeByte (str "\\ufffd") [b] (some t) s)
          ++ 34 :: rest)
        = some ((if b.toNat < 128 then
            [b] ++ coerceFrom (fun b => [b]) [0xEF, 0xBF, 0xBD] [] none s
          else
            match utf8Lead b.toNat with
            | none => [0xEF, 0xBF, 0xBD] ++ coerceFrom (fun b => [b]) [0xEF, 0xBF, 0xBD] [] none s
            | some t => coerceFrom (fun b => [b]) [0xEF, 0xBF, 0xBD] [b] (some t) s), rest) := by
      by_cases h : b.toNat < 128
      · rw [if_pos h, if_pos h, List.append_assoc, read_ascii b h, ih [] none (pending_none _)]
        rfl
      · rw [if_neg h, if_neg h]
        cases hl : utf8Lead b.toNat with
        | none =>
          simp only []
          rw [List.append_assoc, read_bad, ih [] none (pending_none _)]
          rfl
        | some t2 =>
          simp only []
          exact ih [b] (some t2) (pending_lead b h t2 hl)
    cases t with
    | none =>
      simp only [coerceFrom]
      exact start
    | some p =>
      obtain ⟨need, lo, hi⟩ := p
      simp only [coerceFrom]
      by_cases hr : lo ≤ b.toNat ∧ b.toNat ≤ hi
      · rw [if_pos hr, if_pos hr]
        cases hn : utf8Next need with
        | none =>
          simp only []
          rw [List.append_assoc, List.cons_append,
            pending_last pend need lo hi b hp hr hn, ih [] none (pending_none _)]
          rfl
        | some t2 =>
          simp only []
          exact ih (pend ++ [b]) (some t2) (pending_next pend need lo hi b hp hr t2 hn)
      · rw [if_neg hr, if_neg hr, List.append_assoc, read_flush, start]
        rfl

theorem readString_escape (s rest : GoString) :
    readString (jsonEscape s ++ 34 :: rest) = some (toValidUTF8 s, rest) :=
  read_coerce s rest [] none (pending_none _)

theorem coerce_valid (s pend : GoString) (t : Option (Nat × Nat × Nat))
    (hv : utf8Valid t s = true) :
    coerceFrom (fun b => [b]) [0xEF, 0xBF, 0xBD] pend t s
      = (match t with
          | none => s
          | some _ => pend ++ s) := by
  induction s generalizing pend t with
  | nil =>
    cases t with
    | none => rfl
    | some p => simp [utf8Valid] at hv
  | cons b s ih =>
    cases t with
    | none =>
      simp only [coerceFrom]
      by_cases h : b.toNat < 128
      · have hv2 : utf8Valid none s = true := by simpa [utf8Valid, h] using hv
        rw [if_pos h, ih [] none hv2]
        rfl
      · rw [if_neg h]
        cases hl : utf8Lead b.toNat with
        | none => simp [utf8Valid, h, hl] at hv
        | some t2 =>
          have hv2 : utf8Valid (some t2) s = true := by simpa [utf8Valid, h, hl] using hv
          simp only []
          rw [ih [b] (some t2) hv2]
          rfl
    | some p =>
      obtain ⟨need, lo, hi⟩ := p
      simp only [coerceFrom]
      by_cases hr : lo ≤ b.toNat ∧ b.toNat ≤ hi
      · have hv2 : utf8Valid (utf8Next need) s = true := by simpa [utf8Valid, hr] using hv
        rw [if_pos hr]
        cases hn : utf8Next need with
        | none =>
          rw [hn] at hv2
          simp only []
          rw [ih [] none hv2]
        | some t2 =>
          rw [hn] at hv2
          simp only []
          rw [ih (pend ++ [b]) (some t2) hv2]
          simp
      · simp [utf8Valid, hr] at hv

theorem toValidUTF8_of_valid (s : GoString) (hv : validUTF8 s = true) : toValidUTF8 s = s :=
  coerce_valid s [] none hv

theorem bad_bytes : ∀ x ∈ str "\\ufffd", 32 ≤ x.toNat := by decide

theorem flush_bytes (pend : GoString) : ∀ x ∈ flush (str "\\ufffd") pend, 32 ≤ x.toNat := by
  intro x hx
  simp only [flush, List.mem_flatMap] at hx
  obtain ⟨_, _, hx⟩ := hx
  exact bad_bytes x hx

theorem jsonEscapeByte_bytes (c : Byte) (h : c.toNat < 128) :
    ∀ b ∈ jsonEscapeByte c, 32 ≤ b.toNat := by
  intro b hb
  unfold jsonEscapeByte at hb
  split at hb
  · simp only [List.mem_cons, List.mem_singleton, List.not_mem_nil, or_false] at hb
    rcases hb with rfl | rfl <;> decide
  · split at hb
    · simp only [List.mem_cons, List.mem_singleton, List.not_mem_nil, or_false] at hb
      rcases hb with rfl | rfl <;> decide
    · split at hb
      · rename_i hc
        simp only [List.mem_cons, List.mem_singleton, List.not_mem_nil, or_false] at hb
        rcases hb with rfl | rfl | rfl | rfl | rfl | rfl
        · decide
        · decide
        · decide
        · decide
        · exact hexDigit_toNat _ (by omega)
        · exact hexDigit_toNat _ (Nat.mod_lt _ (by decide))
      · rename_i hc
        simp only [List.mem_singleton] at hb
        subst hb
        omega

theorem coerce_bytes (s pend : GoString) (t : Option (Nat × Nat × Nat))
    (hp : ∀ x ∈ pend, 32 ≤ x.toNat) (ht : ∀ need lo hi, t = some (need, lo, hi) → 128 ≤ lo) :
    ∀ x ∈ coerceFrom jsonEscapeByte (str "\\ufffd") pend t s, 32 ≤ x.toNat := by
  induction s generalizing pend t with
  | nil =>
    intro x hx
    cases t with
    | none => simp [coerceFrom] at hx
    | some p =>
      have e1 : coerceFrom jsonEscapeByte (str "\\ufffd") pend (some p) []
          = flush (str "\\ufffd") pend := rfl
      rw [e1] at hx
      exact flush_bytes pend x hx
  | cons b s ih =>
    have hnil : ∀ x ∈ ([] : GoString), 32 ≤ x.toNat := fun _ h => by cases h
    have hnone : ∀ need lo hi, (none : Option (Nat × Nat × Nat)) = some (need, lo, hi)
        → 128 ≤ lo := fun _ _ _ e => by cases e
    have start : ∀ x ∈ (if b.toNat < 128 then
            jsonEscapeByte b ++ coerceFrom jsonEscapeByte (str "\\ufffd") [] none s
          else
            match utf8Lead b.toNat with
            | none => str "\\ufffd" ++ coerceFrom jsonEscapeByte (str "\\ufffd") [] none s
            | some t => coerceFrom jsonEscapeByte (str "\\ufffd") [b] (some t) s),
        32 ≤ x.toNat := by
      intro x hx
      by_cases h : b.toNat < 128
      · rw [if_pos h] at hx
        rcases List.mem_append.mp hx with hx | hx
        · exact jsonEscapeByte_bytes b h x hx
        · exact ih [] none hnil hnone x hx
      · rw [if_neg h] at hx
        cases hl : utf8Lead b.toNat with
        | none =>
          rw [hl] at hx
          simp only [] at hx
          rcases List.mem_append.mp hx with hx | hx
          · exact bad_bytes x hx
          · exact ih [] none hnil hnone x hx
        | some t2 =>
          rw [hl] at hx
          simp only [] at hx
          refine ih [b] (some t2) ?_ ?_ x hx
          · intro y hy
            rw [List.mem_singleton.mp hy]
            omega
          · intro n2 lo2 hi2 e
            cases e
            exact utf8Lead_lo hl
    cases t with
    | none =>
      simp only [coerceFrom]
      exact start
    | some p =>
      obtain ⟨need, lo, hi⟩ := p
      simp only [coerceFrom]
      intro x hx
      by_cases hr : lo ≤ b.toNat ∧ b.toNat ≤ hi
      · rw [if_pos hr] at hx
        have hlo := ht need lo hi rfl
        have hb : 32 ≤ b.toNat := by omega
        cases hn : utf8Next need with
        | none =>
          rw [hn] at hx
          simp only [] at hx
          rcases List.mem_append.mp hx with hx | hx
          · exact hp x hx
          · rcases List.mem_cons.mp hx with rfl | hx
            · exact hb
            · exact ih [] none hnil hnone x hx
        | some t2 =>
          rw [hn] at hx
          simp only [] at hx
          refine ih (pend ++ [b]) (some t2) ?_ ?_ x hx
          · intro y hy
            rcases List.mem_append.mp hy with hy | hy
            · exact hp y hy
            · rw [List.mem_singleton.mp hy]
              exact hb
          · intro n2 lo2 hi2 e
            cases e
            exact utf8Next_lo hn
      · rw [if_neg hr] at hx
        rcases List.mem_append.mp hx with hx | hx
        · exact flush_bytes pend x hx
        · exact start x hx


theorem jsonEscape_bytes (s : GoString) : ∀ b ∈ jsonEscape s, 32 ≤ b.toNat :=
  coerce_bytes s [] none (fun _ h => by cases h) (fun _ _ _ e => by cases e)

theorem utf8Valid_bad (x : GoString) :
    utf8Valid none (0xEF :: 0xBF :: 0xBD :: x) = utf8Valid none x := by
  have h1 : ¬ (0xEF : Byte).toNat < 128 := by decide
  have h2 : utf8Lead (0xEF : Byte).toNat = some (2, 0x80, 0xBF) := by decide
  have h3 : 0x80 ≤ (0xBF : Byte).toNat ∧ (0xBF : Byte).toNat ≤ 0xBF := by decide
  have h4 : 0x80 ≤ (0xBD : Byte).toNat ∧ (0xBD : Byte).toNat ≤ 0xBF := by decide
  have h5 : utf8Next 2 = some (1, 0x80, 0xBF) := by decide
  have h6 : utf8Next 1 = none := by decide
  rw [utf8Valid, if_neg h1, h2]
  simp only []
  rw [utf8Valid, if_pos h3, h5, utf8Valid, if_pos h4, h6]

theorem utf8Valid_flush (pend x : GoString) :
    utf8Valid none (flush [0xEF, 0xBF, 0xBD] pend ++ x) = utf8Valid none x := by
  induction pend with
  | nil => rfl
  | cons a pend ih =>
    have : flush [0xEF, 0xBF, 0xBD] (a :: pend) ++ x
        = 0xEF :: 0xBF :: 0xBD :: (flush [0xEF, 0xBF, 0xBD] pend ++ x) := by
      simp [flush]
    rw [this, utf8Valid_bad, ih]

theorem coerce_utf8 (s pend : GoString) (t : Option (Nat × Nat × Nat))
    (hq : ∀ p, t = some p → ∀ x, utf8Valid none (pend ++ x) = utf8Valid (some p) x) :
    utf8Valid none (coerceFrom (fun b => [b]) [0xEF, 0xBF, 0xBD] pend t s) = true := by
  have hlead : ∀ (b : Byte) (t2 : Nat × Nat × Nat), ¬ b.toNat < 128 →
      utf8Lead b.toNat = some t2 →
      ∀ p, some t2 = some p → ∀ x, utf8Valid none ([b] ++ x) = utf8Valid (some p) x := by
    intro b t2 h hl p hp x
    cases hp
    show utf8Valid none (b :: x) = _
    rw [utf8Valid, if_neg h, hl]
  have hfresh : ∀ (b : Byte) (s : GoString),
      (∀ (pend : GoString) (t : Option (Nat × Nat × Nat)),
        (∀ p, t = some p → ∀ x, utf8Valid none (pend ++ x) = utf8Valid (some p) x) →
        utf8Valid none (coerceFrom (fun b => [b]) [0xEF, 0xBF, 0xBD] pend t s) = true) →
      utf8Valid none
        (if b.toNat < 128 then
          (fun b => [b]) b ++ coerceFrom (fun b => [b]) [0xEF, 0xBF, 0xBD] [] none s
        else match utf8Lead b.toNat with
          | none => [0xEF, 0xBF, 0xBD] ++ coerceFrom (fun b => [b]) [0xEF, 0xBF, 0xBD] [] none s
          | some t => coerceFrom (fun b => [b]) [0xEF, 0xBF, 0xBD] [b] (some t) s) = true := by
    intro b s ih
    have hnone := ih [] none (fun p hp => by cases hp)
    by_cases h : b.toNat < 128
    · rw [if_pos h]
      show utf8Valid none (b :: _) = true
      rw [utf8Valid, if_pos h]
      exact hnone
    · rw [if_neg h]
      cases hl : utf8Lead b.toNat with
      | none =>
        show utf8Valid none (0xEF :: 0xBF :: 0xBD :: _) = true
        rw [utf8Valid_bad]
        exact hnone
      | some t2 => exact ih [b] (some t2) (hlead b t2 h hl)
  induction s generalizing pend t with
  | nil =>
    cases t with
    | none => rfl
    | some p =>
      have := utf8Valid_flush pend []
      simpa [coerceFrom, utf8Valid] using this
  | cons b s ih =>
    cases t with
    | none =>
      simp only [coerceFrom]
      exact hfresh b s ih
    | some p =>
      obtain ⟨need, lo, hi⟩ := p
      simp only [coerceFrom]
      by_cases hr : lo ≤ b.toNat ∧ b.toNat ≤ hi
      · rw [if_pos hr]
        cases hn : utf8Next need with
        | none =>
          simp only []
          rw [hq _ rfl, utf8Valid, if_pos hr, hn]
          exact ih [] none (fun p hp => by cases hp)
        | some t2 =>
          simp only []
          apply ih
          intro p hp x
          cases hp
          rw [List.append_assoc, hq _ rfl]
          show utf8Valid (some (need, lo, hi)) (b :: x) = _
          rw [utf8Valid, if_pos hr, hn]
      · rw [if_neg hr, utf8Valid_flush]
        exact hfresh b s ih

theorem validUTF8_toValidUTF8 (s : GoString) : validUTF8 (toValidUTF8 s) = true :=
  coerce_utf8 s [] none (fun _ hp => by cases hp)

theorem digit_toNat (n : Nat) (h : n < 10) : ((48 + n).toUInt8).toNat = 48 + n := by
  rw [toNat_toUInt8]
  omega

theorem digit_isDigit (n : Nat) (h : n < 10) : isDigit (48 + n).toUInt8 = true := by
  simp only [isDigit, digit_toNat n h, decide_eq_true_eq]
  omega

theorem decimal_digits (fuel n : Nat) : ∀ b ∈ decimal fuel n, isDigit b = true := by
  induction fuel generalizing n with
  | zero => simp [decimal]
  | succ f ih =>
    intro b hb
    unfold decimal at hb
    split at hb
    · rename_i hn
      rw [List.mem_singleton.mp hb]
      exact digit_isDigit n hn
    · rcases List.mem_append.mp hb with hb | hb
      · exact ih _ b hb
      · rw [List.mem_singleton.mp hb]
        exact digit_isDigit _ (Nat.mod_lt _ (by decide))

theorem decimal_ne_nil (fuel n : Nat) : decimal (fuel + 1) n ≠ [] := by
  unfold decimal
  split <;> simp

theorem digitsValue_concat (ds : GoString) (d : Byte) :
    digitsValue (ds ++ [d]) = digitsValue ds * 10 + (d.toNat - 48) := by
  simp [digitsValue, List.foldl_append]

theorem decimal_value (fuel n : Nat) (h : n < fuel) : digitsValue (decimal fuel n) = n := by
  induction fuel generalizing n with
  | zero => omega
  | succ f ih =>
    unfold decimal
    split
    · rename_i hn
      simp only [digitsValue, List.foldl_cons, List.foldl_nil, digit_toNat n hn]
      omega
    · rename_i hn
      rw [digitsValue_concat, ih (n / 10) (by omega),
        digit_toNat (n % 10) (Nat.mod_lt _ (by decide))]
      omega

theorem decimal_lead (fuel n : Nat) (h : n < fuel) (d : Byte) (ds : GoString)
    (hd : decimal fuel n = d :: ds) (h0 : d = 48) : ds = [] := by
  induction fuel generalizing n d ds with
  | zero => omega
  | succ f ih =>
    unfold decimal at hd
    split at hd
    · simp only [List.cons.injEq] at hd
      exact hd.2.symm
    · rename_i hn
      exfalso
      have hf : n / 10 < f := by omega
      cases hq : decimal f (n / 10) with
      | nil =>
        have := decimal_value f (n / 10) hf
        rw [hq] at this
        simp only [digitsValue, List.foldl_nil] at this
        omega
      | cons e es =>
        rw [hq] at hd
        simp only [List.cons_append, List.cons.injEq] at hd
        have he : e = 48 := hd.1.trans h0
        have hes := ih (n / 10) hf e es hq he
        have := decimal_value f (n / 10) hf
        rw [hq, hes, he] at this
        simp only [digitsValue, List.foldl_cons, List.foldl_nil] at this
        have h48 : (48 : Byte).toNat = 48 := by decide
        rw [h48] at this
        omega

theorem span_digits (ds : GoString) (c : Byte) (rest : GoString)
    (hds : ∀ b ∈ ds, isDigit b = true) (hc : isDigit c = false) :
    (ds ++ c :: rest).span isDigit = (ds, c :: rest) := by
  rw [List.span_eq_take_drop, List.takeWhile_append_of_pos hds,
    List.dropWhile_append_of_pos hds]
  simp [List.takeWhile_cons, List.dropWhile_cons, hc]

theorem readNat_decimal (fuel n : Nat) (h : n < fuel) (c : Byte) (rest : GoString)
    (hc : isDigit c = false) :
    readNat (decimal fuel n ++ c :: rest) = some (n, c :: rest) := by
  unfold readNat
  rw [span_digits _ c rest (decimal_digits fuel n) hc]
  cases hd : decimal fuel n with
  | nil =>
    obtain ⟨f, rfl⟩ : ∃ f, fuel = f + 1 := ⟨fuel - 1, by omega⟩
    exact absurd hd (decimal_ne_nil f n)
  | cons d ds =>
    have hlead : ¬ (d = 48 ∧ ds ≠ []) := fun hh => hh.2 (decimal_lead fuel n h d ds hd hh.1)
    simp only [hlead, ↓reduceIte]
    rw [← hd, decimal_value fuel n h]

theorem readNumber_formatInt (i : Int) (c : Byte) (rest : GoString) (hc : isDigit c = false) :
    readNumber (formatInt i ++ c :: rest) = some (i, c :: rest) := by
  unfold formatInt
  have hnat := readNat_decimal (i.natAbs + 1) i.natAbs (Nat.lt_succ_self _) c rest hc
  split
  · rename_i hneg
    simp only [List.cons_append, readNumber, ↓reduceIte, hnat, Option.map_some']
    congr 2
    omega
  · rename_i hpos
    cases hd : decimal (i.natAbs + 1) i.natAbs with
    | nil => exact absurd hd (decimal_ne_nil _ _)
    | cons d ds =>
      have hdig := decimal_digits (i.natAbs + 1) i.natAbs d (by rw [hd]; exact List.mem_cons_self _ _)
      have h45 : d ≠ 45 := by
        intro e
        rw [e] at hdig
        revert hdig
        decide
      rw [hd] at hnat
      simp only [List.cons_append] at hnat ⊢
      simp only [readNumber, h45, ↓reduceIte, hnat, Option.map_some']
      congr 2
      omega

theorem formatInt_ne_nil (i : Int) : formatInt i ≠ [] := by
  unfold formatInt
  split
  · simp
  · exact decimal_ne_nil _ _

theorem formatInt_bytes (i : Int) : ∀ b ∈ formatInt i, b = 45 ∨ isDigit b = true := by
  intro b hb
  unfold formatInt at hb
  split at hb
  · rcases List.mem_cons.mp hb with rfl | hb
    · exact Or.inl rfl
    · exact Or.inr (decimal_digits _ _ b hb)
  · exact Or.inr (decimal_digits _ _ b hb)

theorem formatInt_toNat (i : Int) : ∀ b ∈ formatInt i, 32 ≤ b.toNat := by
  intro b hb
  rcases formatInt_bytes i b hb with rfl | h
  · decide
  · simp only [isDigit, decide_eq_true_eq] at h
    omega

theorem readValue_number (i : Int) (c : Byte) (rest : GoString) (hc : isDigit c = false) :
    readValue (formatInt i ++ c :: rest) = some (JValue.number i, c :: rest) := by
  have hnum := readNumber_formatInt i c rest hc
  cases hf : formatInt i with
  | nil => exact absurd hf (formatInt_ne_nil i)
  | cons d ds =>
    have hd : d ≠ 34 := by
      intro e
      rcases formatInt_bytes i d (by rw [hf]; exact List.mem_cons_self _ _) with h | h
      · rw [e] at h
        revert h
        decide
      · rw [e] at h
        revert h
        decide
    rw [hf] at hnum
    simp only [List.cons_append] at hnum ⊢
    simp only [readValue, hd, ↓reduceIte, hnum, Option.map_some']

theorem readValue_string (s rest : GoString) :
    readValue (34 :: (jsonEscape s ++ 34 :: rest))
      = some (JValue.string (toValidUTF8 s), rest) := by
  simp [readValue, readString_escape s rest]

/-- The members of the object that `SerializeResult` writes, behind the opening brace. -/
theorem serializeResult_body (r : Result) :
    (SerializeResult r).1 = 123 :: 34 :: (jsonEscape (str "stdout") ++ 34 :: 58 :: 34 ::
      (jsonEscape r.Stdout ++ 34 :: 44 :: 34 :: (jsonEscape (str "stderr") ++ 34 :: 58 :: 34 ::
      (jsonEscape r.Stderr ++ 34 :: 44 :: 34 :: (jsonEscape (str "exit_code") ++ 34 :: 58 ::
      (formatInt r.ExitCode ++ 44 :: 34 :: (jsonEscape (str "duration_ms") ++ 34 :: 58 ::
      (formatInt r.DurationMs ++ [125])))))))) := by
  have h1 : str "\x7b\"stdout\":\"" = 123 :: 34 :: (jsonEscape (str "stdout") ++ [34, 58, 34]) := by
    decide
  have h2 : str "\",\"stderr\":\"" = 34 :: 44 :: 34 :: (jsonEscape (str "stderr") ++ [34, 58, 34]) := by
    decide
  have h3 : str "\",\"exit_code\":" = 34 :: 44 :: 34 :: (jsonEscape (str "exit_code") ++ [34, 58]) := by
    decide
  have h4 : str ",\"duration_ms\":" = 44 :: 34 :: (jsonEscape (str "duration_ms") ++ [34, 58]) := by
    decide
  have h5 : str "\x7d" = [125] := by decide
  simp only [SerializeResult, h1, h2, h3, h4, h5, List.cons_append, List.append_assoc,
    List.nil_append]

theorem readMembers_string (fuel : Nat) (key s rest : GoString) :
    readMembers (fuel + 1) (34 :: (jsonEscape key ++ 34 :: 58 :: 34 ::
      (jsonEscape s ++ 34 :: 44 :: rest)))
      = (readMembers fuel rest).map
          (fun ms => (toValidUTF8 key, JValue.string (toValidUTF8 s)) :: ms) := by
  simp only [readMembers, readString_escape, readValue_string]

theorem readMembers_number (fuel : Nat) (key : GoString) (i : Int) (rest : GoString) :
    readMembers (fuel + 1) (34 :: (jsonEscape key ++ 34 :: 58 :: (formatInt i ++ 44 :: rest)))
      = (readMembers fuel rest).map (fun ms => (toValidUTF8 key, JValue.number i) :: ms) := by
  simp only [readMembers, readString_escape, readValue_number i 44 rest (by decide)]

theorem readMembers_last (fuel : Nat) (key : GoString) (i : Int) :
    readMembers (fuel + 1) (34 :: (jsonEscape key ++ 34 :: 58 :: (formatInt i ++ [125])))
      = some [(toValidUTF8 key, JValue.number i)] := by
  simp only [readMembers, readString_escape, readValue_number i 125 [] (by decide)]

theorem readObject_serializeResult (r : Result) :
    readObject (SerializeResult r).1
      = some [(str "stdout", JValue.string (toValidUTF8 r.Stdout)),
          (str "stderr", JValue.string (toValidUTF8 r.Stderr)),
          (str "exit_code", JValue.number r.ExitCode),
          (str "duration_ms", JValue.number r.DurationMs)] := by
  have k1 : toValidUTF8 (str "stdout") = str "stdout" := by decide
  have k2 : toValidUTF8 (str "stderr") = str "stderr" := by decide
  have k3 : toValidUTF8 (str "exit_code") = str "exit_code" := by decide
  have k4 : toValidUTF8 (str "duration_ms") = str "duration_ms" := by decide
  rw [serializeResult_body, readObject]
  generalize hfuel : List.length _ = fuel
  have h4 : 4 ≤ fuel := by
    rw [← hfuel]
    simp only [List.length_cons, List.length_append]
    omega
  obtain ⟨f, rfl⟩ : ∃ f, fuel = f + 4 := ⟨fuel - 4, by omega⟩
  rw [readMembers_string, readMembers_string, readMembers_number, readMembers_last, k1, k2, k3,
    k4]
  rfl

theorem serializeResult_bytes (r : Result) : ∀ b ∈ (SerializeResult r).1, 32 ≤ b.toNat := by
  intro b hb
  rw [serializeResult_body] at hb
  have hk : ∀ {k : GoString} {c : Byte}, c ∈ jsonEscape k → 32 ≤ c.toNat :=
    fun h => jsonEscape_bytes _ _ h
  have hn : ∀ {i : Int} {c : Byte}, c ∈ formatInt i → 32 ≤ c.toNat :=
    fun h => formatInt_toNat _ _ h
  simp only [List.mem_cons, List.mem_append, List.mem_singleton, List.not_mem_nil,
    or_false] at hb
  rcases hb with rfl | rfl | h | rfl | rfl | rfl | h | rfl | rfl | rfl | h | rfl | rfl | rfl |
    h | rfl | rfl | rfl | h | rfl | rfl | h | rfl | rfl | h | rfl | rfl | h | rfl
  all_goals first | decide | exact hk h | exact hn h

theorem char_scalar (c : Char) :
    c.toNat < 0xD800 ∨ (0xDFFF < c.toNat ∧ c.toNat < 0x110000) := by
  have h := c.valid
  simp only [UInt32.isValidChar, Nat.isValidChar] at h
  exact h

theorem utf8Valid_utf8Bytes (c : Char) (rest : GoString) :
    utf8Valid none (utf8Bytes c ++ rest) = utf8Valid none rest := by
  have hs := char_scalar c
  unfold utf8Bytes utf8OfNat
  split
  · rename_i h1
    have e : (c.toNat.toUInt8).toNat = c.toNat := by rw [toNat_toUInt8]; omega
    simp only [List.singleton_append, utf8Valid, e, h1, ↓reduceIte]
    rfl
  · split
    · rename_i h1 h2
      have e1 : ((0xC0 + c.toNat / 64).toUInt8).toNat = 0xC0 + c.toNat / 64 := by
        rw [toNat_toUInt8]; omega
      have e2 : ((0x80 + c.toNat % 64).toUInt8).toNat = 0x80 + c.toNat % 64 := by
        rw [toNat_toUInt8]; omega
      have hl : utf8Lead (0xC0 + c.toNat / 64) = some (1, 0x80, 0xBF) := by
        unfold utf8Lead
        rw [if_pos (by omega)]
      have hr : 0x80 ≤ 0x80 + c.toNat % 64 ∧ 0x80 + c.toNat % 64 ≤ 0xBF := by omega
      have hn : ¬ (0xC0 + c.toNat / 64 < 128) := by omega
      simp only [List.cons_append, List.nil_append, utf8Valid, e1, e2, hn, ↓reduceIte, hl, hr,
        and_self, utf8Next, Nat.le_refl]
      rfl
    · split
      · rename_i h1 h2 h3
        have e1 : ((0xE0 + c.toNat / 4096).toUInt8).toNat = 0xE0 + c.toNat / 4096 := by
          rw [toNat_toUInt8]; omega
        have e2 : ((0x80 + c.toNat / 64 % 64).toUInt8).toNat = 0x80 + c.toNat / 64 % 64 := by
          rw [toNat_toUInt8]; omega
        have e3 : ((0x80 + c.toNat % 64).toUInt8).toNat = 0x80 + c.toNat % 64 := by
          rw [toNat_toUInt8]; omega
        have hn : ¬ (0xE0 + c.toNat / 4096 < 128) := by omega
        have hr3 : 0x80 ≤ 0x80 + c.toNat % 64 ∧ 0x80 + c.toNat % 64 ≤ 0xBF := by omega
        obtain ⟨lo, hi, hl, hr2⟩ : ∃ lo hi, utf8Lead (0xE0 + c.toNat / 4096) = some (2, lo, hi) ∧
            (lo ≤ 0x80 + c.toNat / 64 % 64 ∧ 0x80 + c.toNat / 64 % 64 ≤ hi) := by
          unfold utf8Lead
          rw [if_neg (by omega)]
          by_cases hE0 : 0xE0 + c.toNat / 4096 = 0xE0
          · rw [if_pos hE0]
            exact ⟨_, _, rfl, by omega⟩
          · rw [if_neg hE0]
            by_cases hED : 0xE0 + c.toNat / 4096 = 0xED
            · rw [if_pos hED]
              exact ⟨_, _, rfl, by omega⟩
            · rw [if_neg hED, if_pos (by omega)]
              exact ⟨_, _, rfl, by omega⟩
        simp only [List.cons_append, List.nil_append, utf8Valid, e1, e2, e3, hn, ↓reduceIte, hl,
          hr2, hr3, and_self, utf8Next]
        simp
      · rename_i h1 h2 h3
        have e1 : ((0xF0 + c.toNat / 262144).toUInt8).toNat = 0xF0 + c.toNat / 262144 := by
          rw [toNat_toUInt8]; omega
        have e2 : ((0x80 + c.toNat / 4096 % 64).toUInt8).toNat = 0x80 + c.toNat / 4096 % 64 := by
          rw [toNat_toUInt8]; omega
        have e3 : ((0x80 + c.toNat / 64 % 64).toUInt8).toNat = 0x80 + c.toNat / 64 % 64 := by
          rw [toNat_toUInt8]; omega
        have e4 : ((0x80 + c.toNat % 64).toUInt8).toNat = 0x80 + c.toNat % 64 := by
          rw [toNat_toUInt8]; omega
        have hn : ¬ (0xF0 + c.toNat / 262144 < 128) := by omega
        have hr3 : 0x80 ≤ 0x80 + c.toNat / 64 % 64 ∧ 0x80 + c.toNat / 64 % 64 ≤ 0xBF := by omega
        have hr4 : 0x80 ≤ 0x80 + c.toNat % 64 ∧ 0x80 + c.toNat % 64 ≤ 0xBF := by omega
        obtain ⟨lo, hi, hl, hr2⟩ : ∃ lo hi, utf8Lead (0xF0 + c.toNat / 262144) = some (3, lo, hi) ∧
            (lo ≤ 0x80 + c.toNat / 4096 % 64 ∧ 0x80 + c.toNat / 4096 % 64 ≤ hi) := by
          unfold utf8Lead
          rw [if_neg (by omega), if_neg (by omega), if_neg (by omega), if_neg (by omega)]
          by_cases hF0 : 0xF0 + c.toNat / 262144 = 0xF0
          · rw [if_pos hF0]
            exact ⟨_, _, rfl, by omega⟩
          · rw [if_neg hF0]
            by_cases hF13 : 0xF1 ≤ 0xF0 + c.toNat / 262144 ∧ 0xF0 + c.toNat / 262144 ≤ 0xF3
            · rw [if_pos hF13]
              exact ⟨_, _, rfl, by omega⟩
            · rw [if_neg hF13, if_pos (by omega)]
              exact ⟨_, _, rfl, by omega⟩
        simp only [List.cons_append, List.nil_append, utf8Valid, e1, e2, e3, e4, hn, ↓reduceIte,
          hl, hr2, hr3, hr4, and_self, utf8Next]
        simp

theorem validUTF8_utf8 (cs : List Char) : validUTF8 (utf8 cs) = true := by
  unfold validUTF8
  induction cs with
  | nil => rfl
  | cons c cs ih =>
    have : utf8 (c :: cs) = utf8Bytes c ++ utf8 cs := by simp [utf8]
    rw [this, utf8Valid_utf8Bytes, ih]

theorem toNat_toUInt32 (n : Nat) : (n.toUInt32).toNat = n % 4294967296 := by
  simp [Nat.toUInt32, UInt32.ofNat, UInt32.toNat]

theorem shiftRight_toNat (v : UInt32) (k : Nat) (hk : k < 32) :
    (v >>> k.toUInt32).toNat = v.toNat / 2 ^ k := by
  show (UInt32.shiftRight v k.toUInt32).toNat = _
  unfold UInt32.shiftRight
  have h : (UInt32.mod k.toUInt32 32).toBitVec.toNat = k := by
    show (k.toUInt32 % 32).toNat = k
    rw [UInt32.toNat_mod, toNat_toUInt32]
    have : (32 : UInt32).toNat = 32 := rfl
    rw [this]
    omega
  simp only [UInt32.toNat]
  show (v.toBitVec >>> (UInt32.mod k.toUInt32 32).toBitVec.toNat).toNat = _
  rw [h, BitVec.toNat_ushiftRight, Nat.shiftRight_eq_div_pow]

set_option maxRecDepth 100000 in
theorem mask_cont : ∀ n, n < 256 → ((n.toUInt8 &&& 0x3f) ||| 0x80) = (0x80 + n % 64).toUInt8 := by
  decide

set_option maxRecDepth 100000 in
theorem mask_lead2 : ∀ n, n < 256 → ((n.toUInt8 &&& 0x1f) ||| 0xc0) = (0xC0 + n % 32).toUInt8 := by
  decide

set_option maxRecDepth 100000 in
theorem mask_lead3 : ∀ n, n < 256 → ((n.toUInt8 &&& 0x0f) ||| 0xe0) = (0xE0 + n % 16).toUInt8 := by
  decide

set_option maxRecDepth 100000 in
theorem mask_lead4 : ∀ n, n < 256 → ((n.toUInt8 &&& 0x07) ||| 0xf0) = (0xF0 + n % 8).toUInt8 := by
  decide

theorem toUInt8_mod (n : Nat) : n.toUInt8 = (n % 256).toUInt8 := by
  apply UInt8.ext
  rw [toNat_toUInt8, toNat_toUInt8]
  omega

theorem uint32_toUInt8 (v : UInt32) : v.toUInt8 = (v.toNat % 256).toUInt8 := by
  show v.toNat.toUInt8 = _
  exact toUInt8_mod _

theorem uint32_le (v : UInt32) (k : Nat) (hk : k < 4294967296) :
    v ≤ k.toUInt32 ↔ v.toNat ≤ k := by
  rw [UInt32.le_def, BitVec.le_def]
  show v.toNat ≤ (k.toUInt32).toNat ↔ _
  rw [toNat_toUInt32, Nat.mod_eq_of_lt hk]

theorem utf8EncodeChar_eq (c : Char) : String.utf8EncodeChar c = utf8Bytes c := by
  have hs := char_scalar c
  have hn : c.val.toNat = c.toNat := rfl
  have s6 := shiftRight_toNat c.val 6 (by decide)
  have s12 := shiftRight_toNat c.val 12 (by decide)
  have s18 := shiftRight_toNat c.val 18 (by decide)
  have l1 := uint32_le c.val 0x7f (by decide)
  have l2 := uint32_le c.val 0x7ff (by decide)
  have l3 := uint32_le c.val 0xffff (by decide)
  have b0 := uint32_toUInt8 c.val
  have b6 := uint32_toUInt8 (c.val >>> (6 : Nat).toUInt32)
  have b12 := uint32_toUInt8 (c.val >>> (12 : Nat).toUInt32)
  have b18 := uint32_toUInt8 (c.val >>> (18 : Nat).toUInt32)
  rw [s6] at b6
  rw [s12] at b12
  rw [s18] at b18
  rw [hn] at l1 l2 l3 b0 b6 b12 b18
  have m0 := mask_cont (c.toNat % 256) (Nat.mod_lt _ (by decide))
  have m6 := mask_cont (c.toNat / 2 ^ 6 % 256) (Nat.mod_lt _ (by decide))
  have m12 := mask_cont (c.toNat / 2 ^ 12 % 256) (Nat.mod_lt _ (by decide))
  have k6 := mask_lead2 (c.toNat / 2 ^ 6 % 256) (Nat.mod_lt _ (by decide))
  have k12 := mask_lead3 (c.toNat / 2 ^ 12 % 256) (Nat.mod_lt _ (by decide))
  have k18 := mask_lead4 (c.toNat / 2 ^ 18 % 256) (Nat.mod_lt _ (by decide))
  unfold String.utf8EncodeChar utf8Bytes utf8OfNat
  show (if c.val ≤ (0x7f : Nat).toUInt32 then _
    else if c.val ≤ (0x7ff : Nat).toUInt32 then
      [(c.val >>> (6 : Nat).toUInt32).toUInt8 &&& 0x1f ||| 0xc0, c.val.toUInt8 &&& 0x3f ||| 0x80]
    else if c.val ≤ (0xffff : Nat).toUInt32 then
      [(c.val >>> (12 : Nat).toUInt32).toUInt8 &&& 0x0f ||| 0xe0,
        (c.val >>> (6 : Nat).toUInt32).toUInt8 &&& 0x3f ||| 0x80, c.val.toUInt8 &&& 0x3f ||| 0x80]
    else
      [(c.val >>> (18 : Nat).toUInt32).toUInt8 &&& 0x07 ||| 0xf0,
        (c.val >>> (12 : Nat).toUInt32).toUInt8 &&& 0x3f ||| 0x80,
        (c.val >>> (6 : Nat).toUInt32).toUInt8 &&& 0x3f ||| 0x80,
        c.val.toUInt8 &&& 0x3f ||| 0x80]) = _
  rw [b0, b6, b12, b18, m0, m6, m12, k6, k12, k18]
  by_cases h1 : c.toNat < 0x80
  · rw [if_pos (l1.mpr (by omega)), if_pos h1]
    exact congrArg (fun x => [x]) (toUInt8_mod _).symm
  · rw [if_neg (fun h => h1 (by have := l1.mp h; omega)), if_neg h1]
    by_cases h2 : c.toNat < 0x800
    · rw [if_pos (l2.mpr (by omega)), if_pos h2]
      have e1 : 0xC0 + c.toNat / 2 ^ 6 % 256 % 32 = 0xC0 + c.toNat / 64 := by omega
      have e2 : 0x80 + c.toNat % 256 % 64 = 0x80 + c.toNat % 64 := by omega
      rw [e1, e2]
    · rw [if_neg (fun h => h2 (by have := l2.mp h; omega)), if_neg h2]
      by_cases h3 : c.toNat < 0x10000
      · rw [if_pos (l3.mpr (by omega)), if_pos h3]
        have e1 : 0xE0 + c.toNat / 2 ^ 12 % 256 % 16 = 0xE0 + c.toNat / 4096 := by omega
        have e2 : 0x80 + c.toNat / 2 ^ 6 % 256 % 64 = 0x80 + c.toNat / 64 % 64 := by omega
        have e3 : 0x80 + c.toNat % 256 % 64 = 0x80 + c.toNat % 64 := by omega
        rw [e1, e2, e3]
      · rw [if_neg (fun h => h3 (by have := l3.mp h; omega)), if_neg h3]
        have e1 : 0xF0 + c.toNat / 2 ^ 18 % 256 % 8 = 0xF0 + c.toNat / 262144 := by omega
        have e2 : 0x80 + c.toNat / 2 ^ 12 % 256 % 64 = 0x80 + c.toNat / 4096 % 64 := by omega
        have e3 : 0x80 + c.toNat / 2 ^ 6 % 256 % 64 = 0x80 + c.toNat / 64 % 64 := by omega
        have e4 : 0x80 + c.toNat % 256 % 64 = 0x80 + c.toNat % 64 := by omega
        rw [e1, e2, e3, e4]

theorem str_eq_utf8 (text : String) : str text = utf8 text.toList := by
  unfold str utf8
  congr 1
  funext c
  exact utf8EncodeChar_eq c

theorem validUTF8_str (text : String) : validUTF8 (str text) = true := by
  rw [str_eq_utf8]
  exact validUTF8_utf8 _

theorem toValidUTF8_str (text : String) : toValidUTF8 (str text) = str text :=
  toValidUTF8_of_valid _ (validUTF8_str text)

/-! ## Lemmas on `Execute` -/

theorem derivedDeadline_le (e : Executor) (w : World) (now : Nat) :
    derivedDeadline e w now ≤ now + e.Timeout := by
  unfold derivedDeadline
  split
  · exact Nat.min_le_right _ _
  · exact Nat.le_refl _

theorem execute_killed (e : Executor) (w : World) (params : MakeParams) (t0 : Nat)
    (htarget : params.Target ≠ []) (hadm : admission w = some (some t0))
    (hspawn : w.spawnOk = true)
    (hlate : ∀ d, w.exitAfter = some d → derivedDeadline e w t0 - t0 < d) :
    ∃ r err, Execute e w params = some (r, some err) ∧ r.ExitCode = -1 := by
  unfold Execute
  rw [if_neg htarget, hadm]
  simp only [hspawn, Bool.true_eq_false, ↓reduceIte]
  cases hx : w.exitAfter with
  | none => exact ⟨_, _, rfl, rfl⟩
  | some d =>
    have hd := hlate d hx
    have hstop : ¬ d < (match Option.map (fun c => c - t0) w.cancelEvent with
        | some c => min c (derivedDeadline e w t0 - t0)
        | none => derivedDeadline e w t0 - t0) := by
      cases w.cancelEvent with
      | none => simp only [Option.map_none']; omega
      | some c =>
        simp only [Option.map_some']
        exact not_lt.mpr (le_trans (min_le_right _ _) (Nat.le_of_lt hd))
    simp only [hstop, ↓reduceIte]
    exact ⟨_, _, rfl, rfl⟩

theorem execute_exited (e : Executor) (w : World) (params : MakeParams) (t0 d : Nat)
    (htarget : params.Target ≠ []) (hadm : admission w = some (some t0))
    (hspawn : w.spawnOk = true) (hexit : w.exitAfter = some d)
    (hdl : d < derivedDeadline e w t0 - t0)
    (hcancel : ∀ c, w.cancelEvent = some c → d < c - t0) :
    Execute e w params = some (⟨w.stdout d, w.stderr d, w.exitStatus, d⟩,
      if w.exitStatus = 0 then none else some ExecError.nonZeroExit) := by
  unfold Execute
  rw [if_neg htarget, hadm]
  simp only [hspawn, Bool.true_eq_false, ↓reduceIte, hexit]
  have hstop : d < (match Option.map (fun c => c - t0) w.cancelEvent with
      | some c => min c (derivedDeadline e w t0 - t0)
      | none => derivedDeadline e w t0 - t0) := by
    cases hc : w.cancelEvent with
    | none => simpa using hdl
    | some c =>
      simp only [Option.map_some']
      exact lt_min (hcancel c hc) hdl
  simp only [hstop, ↓reduceIte]

/-! ## Lemmas on concurrent calls -/

theorem countP_set (p : Phase → Bool) (l : List Phase) (i : Nat) (x y : Phase)
    (h : l[i]? = some x) :
    (l.set i y).countP p + (if p x then 1 else 0) = l.countP p + (if p y then 1 else 0) := by
  induction l generalizing i with
  | nil => simp at h
  | cons a l ih =>
    cases i with
    | zero =>
      simp only [List.getElem?_cons_zero, Option.some.injEq] at h
      subst h
      simp only [List.set_cons_zero, List.countP_cons]
      omega
    | succ i =>
      simp only [List.getElem?_cons_succ] at h
      have := ih i h
      simp only [List.set_cons_succ, List.countP_cons]
      omega

theorem step_phase (K : Nat) (s s2 : Sys) (ev : Event) (h : step K s ev = some s2) :
    ∃ x y : Phase, s.phases[ev.id]? = some x ∧ s2.phases = s.phases.set ev.id y ∧
      ((holdsSlot x = false ∧ holdsSlot y = false ∧ s2.held = s.held) ∨
       (holdsSlot x = false ∧ holdsSlot y = true ∧ s.held < K ∧ s2.held = s.held + 1) ∨
       (holdsSlot x = true ∧ holdsSlot y = true ∧ s2.held = s.held) ∨
       (holdsSlot x = true ∧ holdsSlot y = false ∧ s2.held = s.held - 1)) ∧
      (y = Phase.running → x = Phase.holding) := by
  unfold step at h
  cases hp : s.phases[ev.id]? with
  | none => simp [hp] at h
  | some x =>
    rw [hp] at h
    cases x <;> cases hm : ev.move <;> simp only [hm] at h <;>
      first
        | (cases h; done)
        | (split at h
           · cases h
             refine ⟨_, _, rfl, rfl, ?_, ?_⟩ <;> simp_all [holdsSlot]
           · cases h)
        | (cases h
           refine ⟨_, _, rfl, rfl, ?_, ?_⟩ <;> simp [holdsSlot])

theorem step_inv (K : Nat) (s s2 : Sys) (ev : Event) (hinv : Inv K s)
    (h : step K s ev = some s2) : Inv K s2 := by
  obtain ⟨x, y, hx, hset, hheld, hrun⟩ := step_phase K s s2 ev h
  obtain ⟨h1, h2⟩ := hinv
  have c1 := countP_set holdsSlot s.phases ev.id x y hx
  unfold slotsInUse at h1
  unfold Inv slotsInUse
  rw [hset]
  cases x <;> cases y <;> simp [holdsSlot] at c1 hheld hrun <;>
    (refine ⟨?_, ?_⟩ <;> omega)

theorem run_inv (K : Nat) (s s2 : Sys) (evs : List Event) (hinv : Inv K s)
    (h : run K s evs = some s2) : Inv K s2 := by
  induction evs generalizing s with
  | nil =>
    simp only [run, Option.some.injEq] at h
    exact h ▸ hinv
  | cons ev evs ih =>
    simp only [run] at h
    cases hs : step K s ev with
    | none => simp [hs] at h
    | some s1 =>
      rw [hs] at h
      exact ih s1 (step_inv K s s1 ev hinv hs) h

theorem initial_inv (K N : Nat) : Inv K (initial N) := by
  unfold Inv slotsInUse initial
  have h1 : (List.replicate N Phase.idle).countP holdsSlot = 0 := by
    rw [List.countP_eq_zero]
    intro p hp
    rw [List.eq_of_mem_replicate hp]
    decide
  exact ⟨h1.symm, Nat.zero_le _⟩

theorem alive_le_slotsInUse (s : Sys) : alive s ≤ slotsInUse s := by
  unfold alive slotsInUse
  apply List.countP_mono_left
  intro p _ hp
  rw [decide_eq_true_eq] at hp
  rw [hp]
  rfl

theorem step_moves (K : Nat) (s s2 : Sys) (ev : Event) (h : step K s ev = some s2) :
    ∃ x y : Phase, s.phases[ev.id]? = some x ∧ s2.phases = s.phases.set ev.id y ∧
      ((ev.move.acquires = true ∧ ev.move.releases = false ∧ holdsSlot x = false ∧
          holdsSlot y = true ∧ s2.held = s.held + 1) ∨
       (ev.move.acquires = false ∧ ev.move.releases = true ∧ holdsSlot x = true ∧
          holdsSlot y = false ∧ s2.held = s.held - 1) ∨
       (ev.move.acquires = false ∧ ev.move.releases = false ∧ holdsSlot x = holdsSlot y ∧
          s2.held = s.held)) := by
  unfold step at h
  cases hp : s.phases[ev.id]? with
  | none => simp [hp] at h
  | some x =>
    rw [hp] at h
    cases x <;> cases hm : ev.move <;> simp only [hm] at h <;>
      first
        | (cases h; done)
        | (split at h
           · cases h
             refine ⟨_, _, rfl, rfl, ?_⟩
             simp [holdsSlot, Move.acquires, Move.releases]
           · cases h)
        | (cases h
           refine ⟨_, _, rfl, rfl, ?_⟩
           simp [holdsSlot, Move.acquires, Move.releases])

theorem slotsOf_set (held held2 : Nat) (l : List Phase) (j i : Nat) (x y : Phase)
    (hx : l[j]? = some x) :
    slotsOf ⟨held2, l.set j y⟩ i
      = if j = i then (if holdsSlot y then 1 else 0) else slotsOf ⟨held, l⟩ i := by
  have hj : j < l.length := by
    rcases Nat.lt_or_ge j l.length with h | h
    · exact h
    · rw [List.getElem?_eq_none h] at hx
      cases hx
  unfold slotsOf
  simp only [List.getElem?_set, hj, ↓reduceIte]
  by_cases hji : j = i
  · simp [hji]
  · simp [hji]

theorem step_account (K : Nat) (s s2 : Sys) (ev : Event) (hinv : Inv K s)
    (h : step K s ev = some s2) :
    s2.held + (if ev.move.releases = true then 1 else 0)
      = s.held + (if ev.move.acquires = true then 1 else 0) ∧
    ∀ i, slotsOf s2 i + (if (ev.id == i && ev.move.releases) = true then 1 else 0)
      = slotsOf s i + (if (ev.id == i && ev.move.acquires) = true then 1 else 0) := by
  obtain ⟨x, y, hx, hset, hcase⟩ := step_moves K s s2 ev h
  have c1 := countP_set holdsSlot s.phases ev.id x y hx
  have hheld : s.held = s.phases.countP holdsSlot := hinv.1
  have hso : ∀ i, slotsOf s2 i
      = if ev.id = i then (if holdsSlot y then 1 else 0) else slotsOf s i := by
    intro i
    have := slotsOf_set s.held s2.held s.phases ev.id i x y hx
    rw [← hset] at this
    exact this
  have hsx : slotsOf s ev.id = if holdsSlot x then 1 else 0 := by
    unfold slotsOf
    rw [hx]
  refine ⟨?_, ?_⟩
  · rcases hcase with ⟨a, r, px, py, e⟩ | ⟨a, r, px, py, e⟩ | ⟨a, r, pxy, e⟩
    · simp only [a, r, ↓reduceIte, Bool.false_eq_true]
      omega
    · simp only [px, py, ↓reduceIte, Bool.false_eq_true] at c1
      simp only [a, r, ↓reduceIte, Bool.false_eq_true]
      omega
    · simp only [a, r, ↓reduceIte, Bool.false_eq_true]
      omega
  · intro i
    rw [hso i]
    by_cases hi : ev.id = i
    · subst hi
      rw [hsx]
      rcases hcase with ⟨a, r, px, py, e⟩ | ⟨a, r, px, py, e⟩ | ⟨a, r, pxy, e⟩
      · simp [a, r, px, py]
      · simp [a, r, px, py]
      · simp [a, r, pxy]
    · simp [hi]

theorem run_account (K : Nat) (s s2 : Sys) (evs : List Event) (hinv : Inv K s)
    (h : run K s evs = some s2) :
    s2.held + released (fun _ => true) evs = s.held + acquired (fun _ => true) evs ∧
    ∀ i, slotsOf s2 i + released (fun j => j == i) evs
      = slotsOf s i + acquired (fun j => j == i) evs := by
  induction evs generalizing s with
  | nil =>
    simp only [run, Option.some.injEq] at h
    subst h
    simp [released, acquired]
  | cons ev evs ih =>
    cases hs : step K s ev with
    | none => simp [run, hs] at h
    | some s1 =>
      simp only [run, hs] at h
      obtain ⟨a1, a2⟩ := step_account K s s1 ev hinv hs
      obtain ⟨b1, b2⟩ := ih s1 (step_inv K s s1 ev hinv hs) h
      refine ⟨?_, ?_⟩
      · simp only [released, acquired, List.countP_cons, Bool.true_and] at b1 ⊢
        omega
      · intro i
        have a := a2 i
        have b := b2 i
        simp only [released, acquired, List.countP_cons] at b ⊢
        omega

theorem count_split (i : Nat) (f : Move → Bool) (evs : List Event) :
    evs.countP (fun ev => true && f ev.move)
      = evs.countP (fun ev => (ev.id == i) && f ev.move)
        + evs.countP (fun ev => (ev.id != i) && f ev.move) := by
  induction evs with
  | nil => rfl
  | cons ev evs ih =>
    simp only [List.countP_cons, ih]
    by_cases hi : ev.id = i <;> cases f ev.move <;> simp [hi]
    all_goals omega

theorem held_after_return (K : Nat) (s s2 : Sys) (i : Nat) (evs : List Event) (hinv : Inv K s)
    (hidle : s.phases[i]? = some Phase.idle) (h : run K s evs = some s2)
    (hret : s2.phases[i]? = some Phase.returned) :
    acquired (fun j => j == i) evs = released (fun j => j == i) evs ∧
    s2.held + released (fun j => j != i) evs = s.held + acquired (fun j => j != i) evs := by
  obtain ⟨h1, h2⟩ := run_account K s s2 evs hinv h
  have hi := h2 i
  have e0 : slotsOf s i = 0 := by
    unfold slotsOf
    rw [hidle]
    rfl
  have e2 : slotsOf s2 i = 0 := by
    unfold slotsOf
    rw [hret]
    rfl
  have ca := count_split i Move.acquires evs
  have cr := count_split i Move.releases evs
  simp only [acquired, released] at h1 hi ⊢
  omega

/-! ## The claims on the executor -/

/-- C12: `SerializeResult` returns, for every `Result`, no error and a non-empty text without
any control character, so in compact form with no newline in or behind it.  The text read back
as a JSON object has, for every `Result`, exactly the four members `stdout`, `stderr`,
`exit_code` and `duration_ms`, in this order; the two numbers read back are the integers
`ExitCode` and `DurationMs`, and the two strings read back are `Stdout` and `Stderr` with each
byte that is not part of a UTF-8 character replaced by U+FFFD, which gives a UTF-8 string and
leaves a stream that is one, and so the bytes of every string, as it is.  For the `Result` of
the test the output holds the three pieces the test looks for. -/
theorem serializeResult_object (r : Result) :
    (SerializeResult r).2 = none ∧
    (SerializeResult r).1 ≠ str "" ∧
    (∀ b ∈ (SerializeResult r).1, 32 ≤ b.toNat) ∧
    readObject (SerializeResult r).1
      = some [(str "stdout", JValue.string (toValidUTF8 r.Stdout)),
          (str "stderr", JValue.string (toValidUTF8 r.Stderr)),
          (str "exit_code", JValue.number r.ExitCode),
          (str "duration_ms", JValue.number r.DurationMs)] ∧
    validUTF8 (toValidUTF8 r.Stdout) = true ∧
    validUTF8 (toValidUTF8 r.Stderr) = true ∧
    (validUTF8 r.Stdout = true → toValidUTF8 r.Stdout = r.Stdout) ∧
    (validUTF8 r.Stderr = true → toValidUTF8 r.Stderr = r.Stderr) ∧
    (validUTF8 r.Stdout = true → validUTF8 r.Stderr = true →
      readObject (SerializeResult r).1
        = some [(str "stdout", JValue.string r.Stdout), (str "stderr", JValue.string r.Stderr),
            (str "exit_code", JValue.number r.ExitCode),
            (str "duration_ms", JValue.number r.DurationMs)]) ∧
    (∀ text : String, validUTF8 (str text) = true ∧ toValidUTF8 (str text) = str text) ∧
    (SerializeResult helloResult).1
      = str "\x7b\"stdout\":\"Hello World\",\"stderr\":\"\",\"exit_code\":0,\"duration_ms\":100\x7d" ∧
    contains (SerializeResult helloResult).1 (str "\"stdout\":\"Hello World\"") = Run.done true ∧
    contains (SerializeResult helloResult).1 (str "\"exit_code\":0") = Run.done true ∧
    contains (SerializeResult helloResult).1 (str "\"duration_ms\":100") = Run.done true := by
  refine ⟨rfl, ?_, serializeResult_bytes r, readObject_serializeResult r,
    validUTF8_toValidUTF8 _, validUTF8_toValidUTF8 _,
    toValidUTF8_of_valid _, toValidUTF8_of_valid _, ?_,
    fun text => ⟨validUTF8_str text, toValidUTF8_str text⟩,
    by decide, by decide, by decide, by decide⟩
  · rw [serializeResult_body]
    have : str "" = [] := by decide
    rw [this]
    exact List.cons_ne_nil _ _
  · intro hout herr
    rw [readObject_serializeResult, toValidUTF8_of_valid _ hout, toValidUTF8_of_valid _ herr]

/-- Witness of C12: a `Result` whose streams need escaping and hold characters of two, three
and four bytes, with a negative exit code and a duration of six digits; and a `Result` whose
streams are not UTF-8. -/
theorem serializeResult_object_witness :
    validUTF8 (str "a\"b\\c\n é€😀") = true ∧ validUTF8 (str "\t") = true ∧
    readObject (SerializeResult ⟨str "a\"b\\c\n é€😀", str "\t", -1, 123456⟩).1
      = some [(str "stdout", JValue.string (str "a\"b\\c\n é€😀")),
          (str "stderr", JValue.string (str "\t")),
          (str "exit_code", JValue.number (-1)),
          (str "duration_ms", JValue.number 123456)] ∧
    (SerializeResult ⟨str "a\"b\\c\n é€😀", str "\t", -1, 123456⟩).1
      = str "\x7b\"stdout\":\"a\\\"b\\\\c\\u000a é€😀\",\"stderr\":\"\\u0009\",\"exit_code\":-1,\"duration_ms\":123456\x7d" ∧
    readObject (SerializeResult ⟨[0xFF, 65], [0xE2, 0x82], 1, 0⟩).1
      = some [(str "stdout", JValue.string (toValidUTF8 [0xFF, 65])),
          (str "stderr", JValue.string (toValidUTF8 [0xE2, 0x82])),
          (str "exit_code", JValue.number 1),
          (str "duration_ms", JValue.number 0)] ∧
    toValidUTF8 [0xFF, 65] = [0xEF, 0xBF, 0xBD, 65] ∧
    toValidUTF8 [0xE2, 0x82] = [0xEF, 0xBF, 0xBD, 0xEF, 0xBF, 0xBD] ∧
    (SerializeResult ⟨[0xFF, 65], [0xE2, 0x82], 1, 0⟩).1
      = str "\x7b\"stdout\":\"\\ufffdA\",\"stderr\":\"\\ufffd\\ufffd\",\"exit_code\":1,\"duration_ms\":0\x7d" :=
  ⟨by decide, by decide,
    (serializeResult_object ⟨str "a\"b\\c\n é€😀", str "\t", -1, 123456⟩).2.2.2.2.2.2.2.2.1
      (by decide) (by decide),
    by decide,
    (serializeResult_object ⟨[0xFF, 65], [0xE2, 0x82], 1, 0⟩).2.2.2.1,
    by decide, by decide, by decide⟩

/-- C13: timeout.  When a call is admitted at `t0`, its child is spawned and has not exited
when the derived deadline elapses, `Execute` returns an error and a `Result` whose exit code
is `-1`; the derived deadline is at most `t0` plus the timeout. -/
theorem execute_timeout (e : Executor) (w : World) (params : MakeParams) (t0 : Nat)
    (htarget : params.Target ≠ []) (hadm : admission w = some (some t0))
    (hspawn : w.spawnOk = true)
    (hlate : ∀ d, w.exitAfter = some d → derivedDeadline e w t0 - t0 < d) :
    derivedDeadline e w t0 ≤ t0 + e.Timeout ∧
    ∃ r err, Execute e w params = some (r, some err) ∧ r.ExitCode = -1 :=
  ⟨derivedDeadline_le e w t0, execute_killed e w params t0 htarget hadm hspawn hlate⟩

/-- Witness of C13: the target that sleeps ten seconds, with a timeout of one second. -/
theorem execute_timeout_witness :
    (∀ d, slowWorld.exitAfter = some d →
      derivedDeadline (NewExecutor (str "make") (str "/tmp") 1 1) slowWorld 0 - 0 < d) ∧
    Execute (NewExecutor (str "make") (str "/tmp") 1 1) slowWorld ⟨str "slow"⟩
      = some (⟨[], [], -1, 1000⟩, some ExecError.timeout) ∧
    ∃ r err, Execute (NewExecutor (str "make") (str "/tmp") 1 1) slowWorld ⟨str "slow"⟩
      = some (r, some err) ∧ r.ExitCode = -1 :=
  have h : ∀ d, slowWorld.exitAfter = some d →
      derivedDeadline (NewExecutor (str "make") (str "/tmp") 1 1) slowWorld 0 - 0 < d := by
    intro d hd
    have : d = 10000 := by
      simp only [slowWorld, Option.some.injEq] at hd
      exact hd.symm
    subst this
    decide
  ⟨h, by decide,
    (execute_timeout (NewExecutor (str "make") (str "/tmp") 1 1) slowWorld ⟨str "slow"⟩ 0
      (by decide) (by decide) (by decide) h).2⟩

/-- C14: exit status reporting.  When a call is admitted at `t0` and its child is spawned and
exits by itself, before the derived deadline and before any cancel event, `Execute` returns a
`Result` with the child's exit status and the output written until then, and it returns an
error exactly when that status is not zero. -/
theorem execute_exit_status (e : Executor) (w : World) (params : MakeParams) (t0 d : Nat)
    (htarget : params.Target ≠ []) (hadm : admission w = some (some t0))
    (hspawn : w.spawnOk = true) (hexit : w.exitAfter = some d)
    (hdl : d < derivedDeadline e w t0 - t0)
    (hcancel : ∀ c, w.cancelEvent = some c → d < c - t0) :
    ∃ r err, Execute e w params = some (r, err) ∧ r.ExitCode = w.exitStatus ∧
      (err ≠ none ↔ w.exitStatus ≠ 0) ∧ r.Stdout = w.stdout d ∧ r.Stderr = w.stderr d := by
  refine ⟨_, _, execute_exited e w params t0 d htarget hadm hspawn hexit hdl hcancel, rfl, ?_,
    rfl, rfl⟩
  by_cases hz : w.exitStatus = 0 <;> simp [hz]

/-- Witness of C14: the target `hello`, which echoes a line and exits with status 0, and the
target `nonexistent`, for which `make` exits with status 2. -/
theorem execute_exit_status_witness :
    (Execute (NewExecutor (str "make") (str "/tmp") 10 1) helloWorld ⟨str "hello"⟩
      = some (⟨str "Hello from test\n", [], 0, 5⟩, none)) ∧
    (Execute (NewExecutor (str "make") (str "/tmp") 10 1) missingWorld ⟨str "nonexistent"⟩
      = some (⟨[], str "make: *** No rule to make target 'nonexistent'.  Stop.\n", 2, 5⟩,
          some ExecError.nonZeroExit)) ∧
    (∃ r err, Execute (NewExecutor (str "make") (str "/tmp") 10 1) helloWorld ⟨str "hello"⟩
      = some (r, err) ∧ r.ExitCode = helloWorld.exitStatus ∧
      (err ≠ none ↔ helloWorld.exitStatus ≠ 0) ∧ r.Stdout = helloWorld.stdout 5 ∧
      r.Stderr = helloWorld.stderr 5) :=
  ⟨by decide, by decide,
    execute_exit_status (NewExecutor (str "make") (str "/tmp") 10 1) helloWorld ⟨str "hello"⟩ 0 5
      (by decide) (by decide) (by decide) (by decide) (by decide)
      (fun c hc => by simp [helloWorld] at hc)⟩

/-- C15: slot conservation and release.  In every state that `N` concurrent calls on an
executor with `K` slots can reach, in any interleaving, at most `K` children are alive and at
most `K` slots are held, every child alive belongs to a call that holds a slot, and the number
of slots held is the number of calls that have acquired a slot and not yet returned.  When a
call that was not yet made has returned, by whatever path and whatever the other calls did in
between, it has released what it acquired, and the number of slots held differs from its
pre-call value by exactly what the other calls acquired and released in between; it is the
pre-call value when these balance, as when no other call acquired or released a slot. -/
theorem slot_conservation (K N : Nat) (evs : List Event) (s : Sys)
    (h : run K (initial N) evs = some s) :
    alive s ≤ K ∧ s.held ≤ K ∧ alive s ≤ s.held ∧ s.held = slotsInUse s ∧
    ∀ (i : Nat) (evs2 : List Event) (s2 : Sys),
      s.phases[i]? = some Phase.idle → run K s evs2 = some s2 →
      s2.phases[i]? = some Phase.returned →
      acquired (fun j => j == i) evs2 = released (fun j => j == i) evs2 ∧
      s2.held + released (fun j => j != i) evs2 = s.held + acquired (fun j => j != i) evs2 ∧
      (acquired (fun j => j != i) evs2 = released (fun j => j != i) evs2 →
        s2.held = s.held) := by
  have hinv := run_inv K (initial N) s evs (initial_inv K N) h
  have hal : alive s ≤ s.held := hinv.1 ▸ alive_le_slotsInUse s
  refine ⟨le_trans hal hinv.2, hinv.2, hal, hinv.1, ?_⟩
  intro i evs2 s2 hidle hrun hret
  obtain ⟨h1, h2⟩ := held_after_return K s s2 i evs2 hinv hidle hrun hret
  exact ⟨h1, h2, fun hb => by omega⟩

/-- Witness of C15: two slots, two calls.  Call 0 is made, runs its child to the end and
returns; in between call 1 is made and, in the first run, waits, so that the slot count is back
at its pre-call value; in the second run call 1 also acquires a slot, which it still holds
when call 0 has returned. -/
theorem slot_conservation_witness :
    run 2 (initial 2) [⟨Move.call, 0⟩, ⟨Move.call, 1⟩, ⟨Move.acquire, 0⟩, ⟨Move.spawn, 0⟩,
        ⟨Move.finish, 0⟩]
      = some ⟨0, [Phase.returned, Phase.waiting]⟩ ∧
    (⟨0, [Phase.returned, Phase.waiting]⟩ : Sys).held = (initial 2).held ∧
    run 2 (initial 2) [⟨Move.call, 0⟩, ⟨Move.call, 1⟩, ⟨Move.acquire, 1⟩, ⟨Move.acquire, 0⟩,
        ⟨Move.spawn, 0⟩, ⟨Move.finish, 0⟩]
      = some ⟨1, [Phase.returned, Phase.holding]⟩ ∧
    (⟨1, [Phase.returned, Phase.holding]⟩ : Sys).held
        + released (fun j => j != 0) [⟨Move.call, 0⟩, ⟨Move.call, 1⟩, ⟨Move.acquire, 1⟩,
            ⟨Move.acquire, 0⟩, ⟨Move.spawn, 0⟩, ⟨Move.finish, 0⟩]
      = (initial 2).held
        + acquired (fun j => j != 0) [⟨Move.call, 0⟩, ⟨Move.call, 1⟩, ⟨Move.acquire, 1⟩,
            ⟨Move.acquire, 0⟩, ⟨Move.spawn, 0⟩, ⟨Move.finish, 0⟩] :=
  ⟨by decide,
    ((slot_conservation 2 2 [] (initial 2) (by decide)).2.2.2.2 0
      [⟨Move.call, 0⟩, ⟨Move.call, 1⟩, ⟨Move.acquire, 0⟩, ⟨Move.spawn, 0⟩, ⟨Move.finish, 0⟩]
      ⟨0, [Phase.returned, Phase.waiting]⟩ (by decide) (by decide) (by decide)).2.2 (by decide),
    by decide,
    ((slot_conservation 2 2 [] (initial 2) (by decide)).2.2.2.2 0
      [⟨Move.call, 0⟩, ⟨Move.call, 1⟩, ⟨Move.acquire, 1⟩, ⟨Move.acquire, 0⟩, ⟨Move.spawn, 0⟩,
        ⟨Move.finish, 0⟩]
      ⟨1, [Phase.returned, Phase.holding]⟩ (by decide) (by decide) (by decide)).2.1⟩

end Makeexec
